import Mathlib

set_option maxRecDepth 8000

/-!
A verification development for the browser file upload/download portal.
The definitions below are shallow embeddings of the TypeScript source:
`src/lib/cloud-sync.ts` (mergeFileLists), `src/lib/utils.ts`
(cleanupExpiredFilesSync, getStoredFiles), `src/lib/cloudinary.ts`
(deleteFileFromCloudinary, batchDeleteFilesFromCloudinary),
`src/components/FileManager.tsx` (applyFilters),
`src/components/FileUploader.tsx` (the record built by handleFileUpload),
and the shared-link module (generateShareLink / parseShareLink).

Times are modeled as milliseconds since the Unix epoch (`Nat`); ISO-8601
strings and the JavaScript built-ins `Date.prototype.toISOString` and
`new Date(string).getTime()` are modeled concretely below, restricted to the
strict `YYYY-MM-DDTHH:MM:SS.mmmZ` format for years 1970-9999 (the only format
this application ever produces; an unparseable string plays the role of NaN
and is represented by `Option.none`).
-/

/-! ## Model of the JavaScript date built-ins -/

def msPerDay : Nat := 86400000

/-- Gregorian leap-year rule (as used by ECMAScript UTC date arithmetic). -/
def isLeap (y : Nat) : Bool := (y % 4 == 0 && y % 100 != 0) || y % 400 == 0

/-- Number of days of year `y`. -/
def daysInYear (y : Nat) : Nat := if isLeap y then 366 else 365

/-- Days in a year as a function of the leap flag. -/
def daysInYearL (leap : Bool) : Nat := if leap then 366 else 365

/-- Cumulative number of days strictly before 1-based month `m`. -/
def cumDaysBefore (leap : Bool) (m : Nat) : Nat :=
  let l := if leap then 1 else 0
  match m with
  | 1 => 0 | 2 => 31 | 3 => 59 + l | 4 => 90 + l | 5 => 120 + l | 6 => 151 + l
  | 7 => 181 + l | 8 => 212 + l | 9 => 243 + l | 10 => 273 + l | 11 => 304 + l
  | _ => 334 + l

/-- Length of 1-based month `m`. -/
def monthLen (leap : Bool) (m : Nat) : Nat :=
  match m with
  | 2 => if leap then 29 else 28
  | 4 => 30 | 6 => 30 | 9 => 30 | 11 => 30
  | _ => 31

/-- From a 0-based day-of-year, recover the 1-based month and day-of-month. -/
def monthOfDoy (leap : Bool) (doy : Nat) : Nat × Nat :=
  let l := if leap then 1 else 0
  if doy < 31 then (1, doy + 1)
  else if doy < 59 + l then (2, doy - 31 + 1)
  else if doy < 90 + l then (3, doy - (59 + l) + 1)
  else if doy < 120 + l then (4, doy - (90 + l) + 1)
  else if doy < 151 + l then (5, doy - (120 + l) + 1)
  else if doy < 181 + l then (6, doy - (151 + l) + 1)
  else if doy < 212 + l then (7, doy - (181 + l) + 1)
  else if doy < 243 + l then (8, doy - (212 + l) + 1)
  else if doy < 273 + l then (9, doy - (243 + l) + 1)
  else if doy < 304 + l then (10, doy - (273 + l) + 1)
  else if doy < 334 + l then (11, doy - (304 + l) + 1)
  else (12, doy - (334 + l) + 1)

/-- Starting from year `y` with `d` whole days remaining, walk forward one year
at a time (the fuel argument only forces termination; it is always given
large enough). Returns the final year and the 0-based day within it. -/
def findYear : Nat → Nat → Nat → Nat × Nat
  | 0, y, d => (y, d)
  | fuel + 1, y, d => if d < daysInYear y then (y, d) else findYear fuel (y + 1) (d - daysInYear y)

/-- Total number of days of the `n` consecutive years starting at year `y`. -/
def yearsGap (y : Nat) : Nat → Nat
  | 0 => 0
  | n + 1 => daysInYear y + yearsGap (y + 1) n

/-- One millisecond past the largest instant this model formats (start of year
10000); JavaScript itself would switch to an expanded year format there. -/
def maxEpochMs : Nat := msPerDay * yearsGap 1970 8030

def digitChar (n : Nat) : Char := Char.ofNat (48 + n % 10)

def pad2 (n : Nat) : List Char := [digitChar (n / 10), digitChar n]

def pad3 (n : Nat) : List Char := [digitChar (n / 100), digitChar (n / 10), digitChar n]

def pad4 (n : Nat) : List Char :=
  [digitChar (n / 1000), digitChar (n / 100), digitChar (n / 10), digitChar n]

/-- Year and 0-based day-of-year of the civil date `t` epoch-milliseconds
falls in. -/
def isoDays (t : Nat) : Nat × Nat := findYear (t / msPerDay + 1) 1970 (t / msPerDay)

/-- Model of `Date.prototype.toISOString` for an epoch-millisecond value. -/
def toISOChars (t : Nat) : List Char :=
  pad4 (isoDays t).1 ++ '-' :: pad2 (monthOfDoy (isLeap (isoDays t).1) (isoDays t).2).1 ++
    '-' :: pad2 (monthOfDoy (isLeap (isoDays t).1) (isoDays t).2).2 ++
    'T' :: pad2 (t % msPerDay / 3600000) ++ ':' :: pad2 (t % msPerDay / 60000 % 60) ++
    ':' :: pad2 (t % msPerDay / 1000 % 60) ++ '.' :: pad3 (t % msPerDay % 1000) ++ ['Z']

def toISOString (t : Nat) : String := String.mk (toISOChars t)

def isDigitCh (c : Char) : Bool := 48 ≤ c.toNat && c.toNat ≤ 57

def digitVal (c : Char) : Nat := c.toNat - 48

/-- Read exactly `k` decimal digits from the front of `l`. -/
def readFixedNat : Nat → List Char → Option (Nat × List Char)
  | 0, l => some (0, l)
  | _ + 1, [] => none
  | k + 1, c :: l =>
    if isDigitCh c then (readFixedNat k l).map (fun p => (digitVal c * 10 ^ k + p.1, p.2))
    else none

def expectCh (c : Char) : List Char → Option (List Char)
  | [] => none
  | x :: l => if x = c then some l else none

/-- Model of `new Date(s).getTime()` on the strict ISO format
`YYYY-MM-DDTHH:MM:SS.mmmZ` with 1970 ≤ year ≤ 9999; any other string is
treated as unparseable (`none`, playing the role of NaN). ECMAScript also
accepts shortened ISO forms and (implementation-defined) other formats, and
dates outside this range; the application only ever produces strings of this
exact shape, via `toISOString`. -/
def validIso (y mo d h mi s : Nat) : Bool :=
  decide (1970 ≤ y) && decide (1 ≤ mo) && decide (mo ≤ 12) && decide (1 ≤ d) &&
    decide (d ≤ monthLen (isLeap y) mo) && decide (h ≤ 23) && decide (mi ≤ 59) &&
    decide (s ≤ 59)

def isoValue (y mo d h mi s ms : Nat) : Nat :=
  (yearsGap 1970 (y - 1970) + cumDaysBefore (isLeap y) mo + (d - 1)) * msPerDay
    + h * 3600000 + mi * 60000 + s * 1000 + ms

def parseIsoChars (l : List Char) : Option Nat :=
  match readFixedNat 4 l with
  | none => none
  | some (y, l) =>
  match expectCh '-' l with
  | none => none
  | some l =>
  match readFixedNat 2 l with
  | none => none
  | some (mo, l) =>
  match expectCh '-' l with
  | none => none
  | some l =>
  match readFixedNat 2 l with
  | none => none
  | some (d, l) =>
  match expectCh 'T' l with
  | none => none
  | some l =>
  match readFixedNat 2 l with
  | none => none
  | some (h, l) =>
  match expectCh ':' l with
  | none => none
  | some l =>
  match readFixedNat 2 l with
  | none => none
  | some (mi, l) =>
  match expectCh ':' l with
  | none => none
  | some l =>
  match readFixedNat 2 l with
  | none => none
  | some (s, l) =>
  match expectCh '.' l with
  | none => none
  | some l =>
  match readFixedNat 3 l with
  | none => none
  | some (ms, l) =>
  match expectCh 'Z' l with
  | none => none
  | some l =>
  if l.isEmpty && validIso y mo d h mi s then some (isoValue y mo d h mi s ms) else none

def jsGetTime (s : String) : Option Nat := parseIsoChars s.data

/-! ### Roundtrip: parsing the formatted string recovers the timestamp -/

theorem readFixedNat_append (k : Nat) (xs rest : List Char) (h : xs.length = k) :
    readFixedNat k (xs ++ rest) = (readFixedNat k xs).map (fun p => (p.1, p.2 ++ rest)) := by
  induction k generalizing xs with
  | zero =>
    cases xs with
    | nil => simp [readFixedNat]
    | cons c l => simp at h
  | succ k ih =>
    cases xs with
    | nil => simp at h
    | cons c l =>
      simp only [List.length_cons, Nat.succ.injEq] at h
      simp only [List.cons_append, readFixedNat]
      simp only [List.append_eq]
      by_cases hc : isDigitCh c
      · rw [if_pos hc, if_pos hc, ih l h]
        cases hkl : readFixedNat k l with
        | none => rfl
        | some p => rfl
      · rw [if_neg hc, if_neg hc]
        rfl

theorem pad2_len (n : Nat) : (pad2 n).length = 2 := rfl

theorem pad3_len (n : Nat) : (pad3 n).length = 3 := rfl

theorem pad4_len (n : Nat) : (pad4 n).length = 4 := rfl

theorem read_pad2 (n : Nat) (h : n < 100) : readFixedNat 2 (pad2 n) = some (n, []) := by
  revert n h
  decide

theorem read_pad3 (n : Nat) (h : n < 1000) : readFixedNat 3 (pad3 n) = some (n, []) := by
  revert n h
  decide

theorem read_pad2_append (n : Nat) (h : n < 100) (rest : List Char) :
    readFixedNat 2 (pad2 n ++ rest) = some (n, rest) := by
  rw [readFixedNat_append 2 (pad2 n) rest (pad2_len n), read_pad2 n h]
  rfl

theorem read_pad3_append (n : Nat) (h : n < 1000) (rest : List Char) :
    readFixedNat 3 (pad3 n ++ rest) = some (n, rest) := by
  rw [readFixedNat_append 3 (pad3 n) rest (pad3_len n), read_pad3 n h]
  rfl

theorem pad4_eq (n : Nat) : pad4 n = pad2 (n / 100) ++ pad2 (n % 100) := by
  simp only [pad4, pad2, digitChar, List.cons_append, List.nil_append]
  rw [show 48 + n / 100 / 10 % 10 = 48 + n / 1000 % 10 by omega,
    show 48 + n % 100 / 10 % 10 = 48 + n / 10 % 10 by omega,
    show 48 + n % 100 % 10 = 48 + n % 10 by omega]

theorem readFixedNat_split (j k : Nat) (xs rest : List Char) (h : xs.length = j) :
    readFixedNat (j + k) (xs ++ rest) =
      (readFixedNat j xs).bind
        (fun p => (readFixedNat k rest).map (fun q => (p.1 * 10 ^ k + q.1, q.2))) := by
  induction j generalizing xs with
  | zero =>
    cases xs with
    | nil =>
      simp only [readFixedNat, List.nil_append, Option.some_bind, Nat.zero_add]
      cases readFixedNat k rest with
      | none => rfl
      | some q => simp
    | cons c l => simp at h
  | succ j ih =>
    cases xs with
    | nil => simp at h
    | cons c l =>
      simp only [List.length_cons, Nat.succ.injEq] at h
      have hsx : j + 1 + k = (j + k) + 1 := by omega
      rw [hsx]
      simp only [List.cons_append, readFixedNat]
      simp only [List.append_eq]
      by_cases hc : isDigitCh c
      · rw [if_pos hc, if_pos hc, ih l h]
        cases hjl : readFixedNat j l with
        | none => rfl
        | some p =>
          cases hkr : readFixedNat k rest with
          | none => rfl
          | some q =>
            show some (digitVal c * 10 ^ (j + k) + (p.1 * 10 ^ k + q.1), q.2) =
              some ((digitVal c * 10 ^ j + p.1) * 10 ^ k + q.1, q.2)
            congr 2
            rw [Nat.pow_add]
            ring
      · rw [if_neg hc, if_neg hc]
        rfl

theorem read_pad4_append (n : Nat) (h : n < 10000) (rest : List Char) :
    readFixedNat 4 (pad4 n ++ rest) = some (n, rest) := by
  rw [pad4_eq, List.append_assoc,
    show (4 : Nat) = 2 + 2 from rfl,
    readFixedNat_split 2 2 (pad2 (n / 100)) (pad2 (n % 100) ++ rest) (pad2_len _),
    read_pad2 (n / 100) (by omega), read_pad2_append (n % 100) (by omega) rest]
  show some (n / 100 * 10 ^ 2 + n % 100, rest) = some (n, rest)
  rw [show (10 : Nat) ^ 2 = 100 from rfl]
  congr 2
  omega

theorem expectCh_cons (c : Char) (rest : List Char) : expectCh c (c :: rest) = some rest := by
  simp [expectCh]

theorem daysInYear_ge (y : Nat) : 365 ≤ daysInYear y := by
  unfold daysInYear
  split <;> omega

theorem findYear_gap (n : Nat) : ∀ (y doy fuel : Nat), doy < daysInYear (y + n) →
    yearsGap y n + doy < fuel → findYear fuel y (yearsGap y n + doy) = (y + n, doy) := by
  induction n with
  | zero =>
    intro y doy fuel hd hf
    rw [Nat.add_zero] at hd
    simp only [yearsGap, Nat.zero_add] at hf ⊢
    cases fuel with
    | zero => omega
    | succ f =>
      simp only [findYear]
      rw [if_pos hd, Nat.add_zero]
  | succ n ih =>
    intro y doy fuel hd hf
    have hgap : yearsGap y (n + 1) = daysInYear y + yearsGap (y + 1) n := rfl
    have hge := daysInYear_ge y
    cases fuel with
    | zero => omega
    | succ f =>
      simp only [findYear]
      rw [if_neg (by omega)]
      have harg : yearsGap y (n + 1) + doy - daysInYear y = yearsGap (y + 1) n + doy := by omega
      rw [harg]
      have hy : y + 1 + n = y + (n + 1) := by omega
      rw [ih (y + 1) doy f (by rw [hy]; exact hd) (by omega), hy]

theorem exists_year_split (bound : Nat) : ∀ (y days : Nat), days < yearsGap y bound →
    ∃ n doy, n < bound ∧ doy < daysInYear (y + n) ∧ days = yearsGap y n + doy := by
  induction bound with
  | zero =>
    intro y days h
    simp [yearsGap] at h
  | succ b ih =>
    intro y days h
    by_cases hd : days < daysInYear y
    · exact ⟨0, days, by omega, by simpa using hd, by simp [yearsGap]⟩
    · have hgap : yearsGap y (b + 1) = daysInYear y + yearsGap (y + 1) b := rfl
      obtain ⟨n, doy, hn, hdoy, heq⟩ := ih (y + 1) (days - daysInYear y) (by omega)
      refine ⟨n + 1, doy, by omega, by rw [show y + (n + 1) = y + 1 + n by omega]; exact hdoy, ?_⟩
      have h2 : yearsGap y (n + 1) = daysInYear y + yearsGap (y + 1) n := rfl
      omega

theorem monthOfDoy_inv (leap : Bool) (doy : Nat) (h : doy < daysInYearL leap) :
    1 ≤ (monthOfDoy leap doy).1 ∧ (monthOfDoy leap doy).1 ≤ 12 ∧
    1 ≤ (monthOfDoy leap doy).2 ∧
    (monthOfDoy leap doy).2 ≤ monthLen leap (monthOfDoy leap doy).1 ∧
    cumDaysBefore leap (monthOfDoy leap doy).1 + ((monthOfDoy leap doy).2 - 1) = doy := by
  revert doy h
  cases leap with
  | false => decide
  | true => decide

theorem daysInYear_eq (y : Nat) : daysInYear y = daysInYearL (isLeap y) := rfl

theorem yearsGap_add (a : Nat) : ∀ (y b : Nat),
    yearsGap y (a + b) = yearsGap y a + yearsGap (y + a) b := by
  induction a with
  | zero =>
    intro y b
    simp [yearsGap]
  | succ a ih =>
    intro y b
    have h1 : a + 1 + b = (a + b) + 1 := by omega
    have h2 : yearsGap y ((a + b) + 1) = daysInYear y + yearsGap (y + 1) (a + b) := rfl
    have h3 : yearsGap y (a + 1) = daysInYear y + yearsGap (y + 1) a := rfl
    rw [h1, h2, ih (y + 1) b, h3, show y + 1 + a = y + (a + 1) by omega]
    omega

theorem yearsGap_chunk1 : yearsGap 1970 500 = 182622 := by decide
theorem yearsGap_chunk2 : yearsGap 2470 500 = 182621 := by decide
theorem yearsGap_chunk3 : yearsGap 2970 500 = 182621 := by decide
theorem yearsGap_chunk4 : yearsGap 3470 500 = 182621 := by decide
theorem yearsGap_chunk5 : yearsGap 3970 500 = 182622 := by decide
theorem yearsGap_chunk6 : yearsGap 4470 500 = 182621 := by decide
theorem yearsGap_chunk7 : yearsGap 4970 500 = 182621 := by decide
theorem yearsGap_chunk8 : yearsGap 5470 500 = 182621 := by decide
theorem yearsGap_chunk9 : yearsGap 5970 500 = 182622 := by decide
theorem yearsGap_chunk10 : yearsGap 6470 500 = 182621 := by decide
theorem yearsGap_chunk11 : yearsGap 6970 500 = 182621 := by decide
theorem yearsGap_chunk12 : yearsGap 7470 500 = 182621 := by decide
theorem yearsGap_chunk13 : yearsGap 7970 500 = 182622 := by decide
theorem yearsGap_chunk14 : yearsGap 8470 500 = 182621 := by decide
theorem yearsGap_chunk15 : yearsGap 8970 500 = 182621 := by decide
theorem yearsGap_chunk16 : yearsGap 9470 500 = 182621 := by decide
theorem yearsGap_chunk17 : yearsGap 9970 30 = 10957 := by decide

theorem yearsGap_total : yearsGap 1970 8030 = 2932897 := by
  rw [show (8030 : Nat) = 500 + 7530 from rfl, yearsGap_add, yearsGap_chunk1,
    show (1970 : Nat) + 500 = 2470 from rfl]
  rw [show (7530 : Nat) = 500 + 7030 from rfl, yearsGap_add, yearsGap_chunk2,
    show (2470 : Nat) + 500 = 2970 from rfl]
  rw [show (7030 : Nat) = 500 + 6530 from rfl, yearsGap_add, yearsGap_chunk3,
    show (2970 : Nat) + 500 = 3470 from rfl]
  rw [show (6530 : Nat) = 500 + 6030 from rfl, yearsGap_add, yearsGap_chunk4,
    show (3470 : Nat) + 500 = 3970 from rfl]
  rw [show (6030 : Nat) = 500 + 5530 from rfl, yearsGap_add, yearsGap_chunk5,
    show (3970 : Nat) + 500 = 4470 from rfl]
  rw [show (5530 : Nat) = 500 + 5030 from rfl, yearsGap_add, yearsGap_chunk6,
    show (4470 : Nat) + 500 = 4970 from rfl]
  rw [show (5030 : Nat) = 500 + 4530 from rfl, yearsGap_add, yearsGap_chunk7,
    show (4970 : Nat) + 500 = 5470 from rfl]
  rw [show (4530 : Nat) = 500 + 4030 from rfl, yearsGap_add, yearsGap_chunk8,
    show (5470 : Nat) + 500 = 5970 from rfl]
  rw [show (4030 : Nat) = 500 + 3530 from rfl, yearsGap_add, yearsGap_chunk9,
    show (5970 : Nat) + 500 = 6470 from rfl]
  rw [show (3530 : Nat) = 500 + 3030 from rfl, yearsGap_add, yearsGap_chunk10,
    show (6470 : Nat) + 500 = 6970 from rfl]
  rw [show (3030 : Nat) = 500 + 2530 from rfl, yearsGap_add, yearsGap_chunk11,
    show (6970 : Nat) + 500 = 7470 from rfl]
  rw [show (2530 : Nat) = 500 + 2030 from rfl, yearsGap_add, yearsGap_chunk12,
    show (7470 : Nat) + 500 = 7970 from rfl]
  rw [show (2030 : Nat) = 500 + 1530 from rfl, yearsGap_add, yearsGap_chunk13,
    show (7970 : Nat) + 500 = 8470 from rfl]
  rw [show (1530 : Nat) = 500 + 1030 from rfl, yearsGap_add, yearsGap_chunk14,
    show (8470 : Nat) + 500 = 8970 from rfl]
  rw [show (1030 : Nat) = 500 + 530 from rfl, yearsGap_add, yearsGap_chunk15,
    show (8970 : Nat) + 500 = 9470 from rfl]
  rw [show (530 : Nat) = 500 + 30 from rfl, yearsGap_add, yearsGap_chunk16,
    show (9470 : Nat) + 500 = 9970 from rfl]
  rw [yearsGap_chunk17]

theorem maxEpochMs_eq : maxEpochMs = 253402300800000 := by
  rw [show maxEpochMs = msPerDay * yearsGap 1970 8030 from rfl, yearsGap_total,
    show msPerDay = 86400000 from rfl]

theorem monthLen_le (leap : Bool) (m : Nat) : monthLen leap m ≤ 31 := by
  unfold monthLen
  cases leap <;> rcases m with _ | _ | _ | _ | _ | _ | _ | _ | _ | _ | _ | _ | _ <;> simp

theorem getTime_toISOString (t : Nat) (h : t < maxEpochMs) :
    jsGetTime (toISOString t) = some t := by
  have hmv : msPerDay = 86400000 := rfl
  have hlit : t < msPerDay * yearsGap 1970 8030 := h
  have hdays : t / msPerDay < yearsGap 1970 8030 := Nat.div_lt_of_lt_mul hlit
  obtain ⟨n, doy, hn, hdoy, hsplit⟩ := exists_year_split 8030 1970 (t / msPerDay) hdays
  have hfind : isoDays t = (1970 + n, doy) := by
    unfold isoDays
    rw [hsplit]
    exact findYear_gap n 1970 doy _ hdoy (by omega)
  obtain ⟨hm1, hm2, hd1, hd2, hcum⟩ :=
    monthOfDoy_inv (isLeap (1970 + n)) doy (by rw [← daysInYear_eq]; exact hdoy)
  have hmsOfDay : t % msPerDay < 86400000 := by
    have h0 : t % msPerDay < msPerDay := Nat.mod_lt _ (by rw [hmv]; norm_num)
    omega
  have hmo100 : (monthOfDoy (isLeap (1970 + n)) doy).1 < 100 := by omega
  have hdd100 : (monthOfDoy (isLeap (1970 + n)) doy).2 < 100 := by
    have := monthLen_le (isLeap (1970 + n)) (monthOfDoy (isLeap (1970 + n)) doy).1
    omega
  have hy4 : 1970 + n < 10000 := by omega
  have hh : t % msPerDay / 3600000 < 100 := by omega
  have hmi : t % msPerDay / 60000 % 60 < 100 := by omega
  have hs : t % msPerDay / 1000 % 60 < 100 := by omega
  have hms : t % msPerDay % 1000 < 1000 := by omega
  have hvalid : validIso (1970 + n) (monthOfDoy (isLeap (1970 + n)) doy).1
      (monthOfDoy (isLeap (1970 + n)) doy).2 (t % msPerDay / 3600000)
      (t % msPerDay / 60000 % 60) (t % msPerDay / 1000 % 60) = true := by
    simp only [validIso, Bool.and_eq_true, decide_eq_true_eq]
    refine ⟨⟨⟨⟨⟨⟨⟨by omega, hm1⟩, hm2⟩, hd1⟩, hd2⟩, by omega⟩,
      by omega⟩, by omega⟩
  unfold jsGetTime toISOString toISOChars
  simp only [hfind]
  unfold parseIsoChars
  simp only [List.append_assoc, List.cons_append, read_pad4_append _ hy4, expectCh_cons,
    read_pad2_append _ hmo100, read_pad2_append _ hdd100, read_pad2_append _ hh,
    read_pad2_append _ hmi, read_pad2_append _ hs, read_pad3_append _ hms,
    List.isEmpty_nil, hvalid, Bool.and_self, if_true]
  congr 1
  unfold isoValue
  rw [show 1970 + n - 1970 = n by omega]
  have hfin : (yearsGap 1970 n + cumDaysBefore (isLeap (1970 + n))
        (monthOfDoy (isLeap (1970 + n)) doy).1 +
        ((monthOfDoy (isLeap (1970 + n)) doy).2 - 1)) * msPerDay
      + t % msPerDay = t := by
    rw [Nat.add_assoc, hcum, ← hsplit, Nat.mul_comm]
    exact Nat.div_add_mod t msPerDay
  generalize hP : (yearsGap 1970 n + cumDaysBefore (isLeap (1970 + n))
      (monthOfDoy (isLeap (1970 + n)) doy).1 +
      ((monthOfDoy (isLeap (1970 + n)) doy).2 - 1)) * msPerDay = P at hfin ⊢
  omega

/-! ## Data model: the File Record (`FileInfo` in `src/lib/types.ts`) -/

/-- The metadata record describing one uploaded file, from `src/lib/types.ts`.
`uploadTime` and `expiresAt` are ISO strings exactly as in the source. -/
structure FileInfo where
  id : String
  fileName : String
  uploadTime : String
  expiresAt : String
  fileSize : Nat
  cloudinaryUrl : String
  fileType : String
  publicId : String
  deriving DecidableEq, Repr

/-- JavaScript `a > b` on two `getTime()` results; a NaN (`none`) on either
side makes the comparison false. -/
def gtJS : Option Nat → Option Nat → Bool
  | some a, some b => decide (b < a)
  | _, _ => false

/-- JavaScript `a < b` on two `getTime()` results (false when either is NaN). -/
def ltJS : Option Nat → Option Nat → Bool
  | some a, some b => decide (a < b)
  | _, _ => false

/-! ## A JavaScript `Map` as an insertion-ordered association list.
`Map.prototype.set` keeps the original insertion position when the key is
already present, which `mapSet` mirrors. -/

def mapSet (m : List (String × FileInfo)) (k : String) (v : FileInfo) :
    List (String × FileInfo) :=
  match m with
  | [] => [(k, v)]
  | (k2, v2) :: rest => if k2 = k then (k, v) :: rest else (k2, v2) :: mapSet rest k v

def mapHas (m : List (String × FileInfo)) (k : String) : Bool :=
  m.any (fun p => p.1 == k)

def mapGet (m : List (String × FileInfo)) (k : String) : Option FileInfo :=
  (m.find? (fun p => p.1 == k)).map (fun p => p.2)

/-! ## Stable sort (JavaScript `Array.prototype.sort` is stable).
`lt g f` means "g must come strictly before f"; insertion keeps the original
relative order of elements the comparator ties. -/

def insBy (lt : FileInfo → FileInfo → Bool) (f : FileInfo) : List FileInfo → List FileInfo
  | [] => [f]
  | g :: rest => if lt g f then g :: insBy lt f rest else f :: g :: rest

def sortByB (lt : FileInfo → FileInfo → Bool) : List FileInfo → List FileInfo
  | [] => []
  | f :: rest => insBy lt f (sortByB lt rest)

/-- "a sorts strictly before b" for the `uploadTime`-descending order used by
`mergeFileLists` (comparator `new Date(b).getTime() - new Date(a).getTime()`). -/
def beforeTimeDesc (a b : FileInfo) : Bool :=
  gtJS (jsGetTime a.uploadTime) (jsGetTime b.uploadTime)

/-! ## `mergeFileLists` from `src/lib/cloud-sync.ts` -/

/-- First phase of `mergeFileLists`: insert every local file keyed by id. -/
def locMap (localFiles : List FileInfo) : List (String × FileInfo) :=
  localFiles.foldl (fun m f => mapSet m f.id f) []

/-- Second phase: a cloud file is inserted if its id is absent; otherwise it
replaces the existing entry only when its `uploadTime` is strictly later. -/
def mergeStep (m : List (String × FileInfo)) (file : FileInfo) :
    List (String × FileInfo) :=
  if mapHas m file.id = false then mapSet m file.id file
  else
    match mapGet m file.id with
    | some existing =>
      if gtJS (jsGetTime file.uploadTime) (jsGetTime existing.uploadTime) then
        mapSet m file.id file
      else m
    | none => m

def mergedMap (localFiles cloudFiles : List FileInfo) : List (String × FileInfo) :=
  cloudFiles.foldl mergeStep (locMap localFiles)

/-- `mergeFileLists(localFiles, cloudFiles)` from `src/lib/cloud-sync.ts`. -/
def mergeFileLists (localFiles cloudFiles : List FileInfo) : List FileInfo :=
  sortByB beforeTimeDesc ((mergedMap localFiles cloudFiles).map (fun p => p.2))

/-! ## The expiry sweep `cleanupExpiredFilesSync` from `src/lib/utils.ts` -/

/-- Legacy records without an `expiresAt` (falsy, i.e. the empty string) are
back-filled with now + 24h, exactly as in the source. -/
def backfill (now : Nat) (f : FileInfo) : FileInfo :=
  if f.expiresAt = "" then
    { f with expiresAt := toISOString (now + 24 * 60 * 60 * 1000) }
  else f

/-- `now >= new Date(file.expiresAt).getTime()`; false when the date is NaN. -/
def isExpiredJS (now : Nat) (f : FileInfo) : Bool :=
  match jsGetTime f.expiresAt with
  | some te => decide (te ≤ now)
  | none => false

/-- Result of one sweep: the surviving records, the remote deletion attempts
(publicId and fileType of each, in order), and whether anything expired
(which is what triggers the storage write). -/
structure SweepResult where
  valid : List FileInfo
  deletions : List (String × String)
  hasExpired : Bool
  deriving DecidableEq, Repr

def sweepStep (now : Nat) (r : SweepResult) (f0 : FileInfo) : SweepResult :=
  let f := backfill now f0
  if isExpiredJS now f then
    { r with deletions := r.deletions ++ [(f.publicId, f.fileType)], hasExpired := true }
  else { r with valid := r.valid ++ [f] }

/-- `cleanupExpiredFilesSync(files)` from `src/lib/utils.ts`, with the wall
clock passed explicitly. -/
def cleanupExpiredFilesSync (now : Nat) (files : List FileInfo) : SweepResult :=
  files.foldl (sweepStep now) ⟨[], [], false⟩

/-- Storage content after the sweep: written only when something expired. -/
def sweepPersisted (now : Nat) (files : List FileInfo) : List FileInfo :=
  if (cleanupExpiredFilesSync now files).hasExpired then
    (cleanupExpiredFilesSync now files).valid
  else files

/-! ## Search filter and sort (`applyFilters` in `src/components/FileManager.tsx`) -/

/-- ASCII model of `String.prototype.toLowerCase` (the full built-in also
lowers non-ASCII letters; file names in scope here are compared
case-insensitively only on ASCII letters). -/
def jsLowerChar (c : Char) : Char :=
  if 65 ≤ c.toNat && c.toNat ≤ 90 then Char.ofNat (c.toNat + 32) else c

def jsToLower (s : String) : String := String.mk (s.data.map jsLowerChar)

def isPrefixB : List Char → List Char → Bool
  | [], _ => true
  | _ :: _, [] => false
  | a :: as, b :: bs => a == b && isPrefixB as bs

/-- `hay.includes(needle)`: contiguous-substring test. -/
def includesB (needle : List Char) : List Char → Bool
  | [] => isPrefixB needle []
  | c :: hs => isPrefixB needle (c :: hs) || includesB needle hs

def jsIncludes (hay needle : String) : Bool := includesB needle.data hay.data

/-- `file.fileName.toLowerCase().includes(searchLower)`. -/
def matchesSearch (term : String) (f : FileInfo) : Bool :=
  jsIncludes (jsToLower f.fileName) (jsToLower term)

inductive SortKey where
  | byFileName
  | byUploadTime
  | byFileSize
  deriving DecidableEq, Repr

inductive SortOrd where
  | asc
  | desc
  deriving DecidableEq, Repr

/-- The `FilterOptions` of `src/lib/types.ts` (searchTerm, sortBy, sortOrder). -/
structure FilterOptions where
  searchTerm : String
  sortKey : SortKey
  sortOrd : SortOrd
  deriving DecidableEq, Repr

/-- "a sorts strictly before b" under the comparator of `applyFilters`
(`aValue < bValue ? -1 : aValue > bValue ? 1 : 0`, sign flipped for `desc`).
For `uploadTime` a NaN value ties with everything, as in JavaScript. -/
def beforeBy (fo : FilterOptions) (a b : FileInfo) : Bool :=
  match fo.sortKey, fo.sortOrd with
  | SortKey.byFileName, SortOrd.asc => decide (jsToLower a.fileName < jsToLower b.fileName)
  | SortKey.byFileName, SortOrd.desc => decide (jsToLower b.fileName < jsToLower a.fileName)
  | SortKey.byFileSize, SortOrd.asc => decide (a.fileSize < b.fileSize)
  | SortKey.byFileSize, SortOrd.desc => decide (b.fileSize < a.fileSize)
  | SortKey.byUploadTime, SortOrd.asc => ltJS (jsGetTime a.uploadTime) (jsGetTime b.uploadTime)
  | SortKey.byUploadTime, SortOrd.desc => gtJS (jsGetTime a.uploadTime) (jsGetTime b.uploadTime)

/-- `applyFilters(fileList, currentFilters)` from FileManager: an empty (falsy)
search term skips filtering; then the copy is stably sorted. -/
def applyFilters (files : List FileInfo) (fo : FilterOptions) : List FileInfo :=
  sortByB (beforeBy fo)
    (if fo.searchTerm = "" then files else files.filter (matchesSearch fo.searchTerm))

/-! ## The record built by a successful upload
(`handleFileUpload` in `src/components/FileUploader.tsx`, lines 78-94) -/

/-- The `fileInfo` object assembled after `uploadFileToCloudinary` succeeds:
`uploadTime = now.toISOString()`, `expiresAt = new Date(now.getTime() +
24*60*60*1000).toISOString()`, `fileSize = file.size`. -/
def uploadRecord (fileId fileName : String) (now : Nat) (fileSize : Nat)
    (url fileType publicId : String) : FileInfo :=
  { id := fileId
    fileName := fileName
    uploadTime := toISOString now
    expiresAt := toISOString (now + 24 * 60 * 60 * 1000)
    fileSize := fileSize
    cloudinaryUrl := url
    fileType := fileType
    publicId := publicId }

/-! ## Remote delete and batch delete (`src/lib/cloudinary.ts`) -/

/-- `deleteFileFromCloudinary(publicId, fileType)` in the deployed static
(credential-less) configuration: it logs and returns `Promise.resolve()`.
The second component lists the network endpoints contacted (none). -/
def deleteFileFromCloudinary (publicId : String) (fileType : Option String) :
    Except String Unit × List String :=
  (Except.ok (), [])

structure DelItem where
  publicId : String
  fileType : Option String
  deriving DecidableEq, Repr

structure BatchResult where
  successCount : Nat
  failedCount : Nat
  errors : List String
  deriving DecidableEq, Repr

/-- The `for (let i = 0; i < files.length; i += concurrencyLimit)` slicing
with `concurrencyLimit = 5`. -/
def chunks5 {α : Type} : List α → List (List α)
  | [] => []
  | x :: xs => (x :: xs).take 5 :: chunks5 ((x :: xs).drop 5)
  termination_by l => l.length
  decreasing_by
    simp [List.length_drop]
    omega

/-- Accounting for one item: success bumps `successCount`; a failure bumps
`failedCount` and records `publicId: message`, and processing continues. -/
def runItem (outcome : DelItem → Except String Unit) (r : BatchResult) (f : DelItem) :
    BatchResult :=
  match outcome f with
  | Except.ok _ => { r with successCount := r.successCount + 1 }
  | Except.error m =>
    { r with failedCount := r.failedCount + 1
             errors := r.errors ++ [f.publicId ++ ": " ++ m] }

/-- `batchDeleteFilesFromCloudinary` with the per-item deletion outcome as a
parameter: chunks are awaited sequentially; within a chunk the per-item
completions are concurrent in the source, which only permutes the order in
which the shared counters are bumped, so the sequential model is observation-
equivalent for the aggregate result. -/
def batchDeleteWith (outcome : DelItem → Except String Unit) (files : List DelItem) :
    BatchResult :=
  (chunks5 files).foldl (fun r chunk => chunk.foldl (runItem outcome) r) ⟨0, 0, []⟩

/-- `batchDeleteFilesFromCloudinary(files)` as deployed: every per-item call
is the always-resolving `deleteFileFromCloudinary`. -/
def batchDeleteFilesFromCloudinary (files : List DelItem) : BatchResult :=
  batchDeleteWith (fun f => (deleteFileFromCloudinary f.publicId f.fileType).1) files

/-! ## A model of JSON values and of `JSON.stringify` / `JSON.parse`.

Mutual inductives are used (instead of a nested `List Json`) to get usable
induction principles. Model restrictions, documented here once: numbers are
integers (this application serializes only integer byte counts and
timestamps-as-strings); the parser accepts no surrounding whitespace and the
serializer emits none (`JSON.stringify` emits none; `JSON.parse` would skip
it); control characters are escaped uniformly as `\u00XX` (the built-in also
has shorthands `\n`, `\t`, ... for five of them, an output-format difference
only — the parser below accepts both forms). -/

mutual
inductive Json where
  | null : Json
  | bool : Bool → Json
  | num : Int → Json
  | str : String → Json
  | arr : JsonList → Json
  | obj : JsonObj → Json
  deriving DecidableEq, Repr

inductive JsonList where
  | nil : JsonList
  | cons : Json → JsonList → JsonList
  deriving DecidableEq, Repr

inductive JsonObj where
  | nil : JsonObj
  | cons : String → Json → JsonObj → JsonObj
  deriving DecidableEq, Repr
end

def hexDigit (n : Nat) : Char :=
  if n < 10 then Char.ofNat (48 + n) else Char.ofNat (97 + (n - 10))

/-- JSON string escaping: `"` and `\` get a backslash; control characters
become `\u00XX`; everything else is emitted literally. -/
def escapeChar (c : Char) : List Char :=
  if c = '"' then ['\\', '"']
  else if c = '\\' then ['\\', '\\']
  else if c.toNat < 32 then ['\\', 'u', '0', '0', hexDigit (c.toNat / 16), hexDigit (c.toNat % 16)]
  else [c]

/-- A serialized JSON string literal, quotes included. -/
def escStr (s : String) : List Char := '"' :: (s.data.map escapeChar).join ++ ['"']

def natDigitsAux : Nat → Nat → List Char
  | 0, _ => []
  | fuel + 1, n => if n < 10 then [digitChar n] else natDigitsAux fuel (n / 10) ++ [digitChar n]

/-- Decimal digits of `n`, most significant first. -/
def natDigits (n : Nat) : List Char := natDigitsAux (n + 1) n

def intChars (n : Int) : List Char :=
  if n < 0 then '-' :: natDigits n.natAbs else natDigits n.natAbs

mutual
/-- `JSON.stringify` for the `Json` model. -/
def jsonStr : Json → List Char
  | Json.null => ['n', 'u', 'l', 'l']
  | Json.bool true => ['t', 'r', 'u', 'e']
  | Json.bool false => ['f', 'a', 'l', 's', 'e']
  | Json.num n => intChars n
  | Json.str s => escStr s
  | Json.arr xs => '[' :: jsonStrList xs ++ [']']
  | Json.obj fs => '\x7b' :: jsonStrObj fs ++ ['\x7d']

def jsonStrList : JsonList → List Char
  | JsonList.nil => []
  | JsonList.cons x JsonList.nil => jsonStr x
  | JsonList.cons x (JsonList.cons y tl) =>
    jsonStr x ++ ',' :: jsonStrList (JsonList.cons y tl)

def jsonStrObj : JsonObj → List Char
  | JsonObj.nil => []
  | JsonObj.cons k v JsonObj.nil => escStr k ++ ':' :: jsonStr v
  | JsonObj.cons k v (JsonObj.cons k2 v2 tl) =>
    escStr k ++ ':' :: jsonStr v ++ ',' :: jsonStrObj (JsonObj.cons k2 v2 tl)
end

def jsonStringify (j : Json) : String := String.mk (jsonStr j)

def parseHex (c : Char) : Option Nat :=
  if 48 ≤ c.toNat && c.toNat ≤ 57 then some (c.toNat - 48)
  else if 97 ≤ c.toNat && c.toNat ≤ 102 then some (c.toNat - 97 + 10)
  else if 65 ≤ c.toNat && c.toNat ≤ 70 then some (c.toNat - 65 + 10)
  else none

/-- Body of a JSON string literal: reads up to the closing quote, decoding
escapes. A `\uXXXX` escape is decoded with `Char.ofNat` (a lone surrogate,
which the JavaScript engine would keep as an unpaired UTF-16 unit, becomes
the NUL character here — no claim depends on surrogates). -/
def parseStringBody (l : List Char) : Option (List Char × List Char) :=
  match l with
  | [] => none
  | c :: r =>
    if c = '"' then some ([], r)
    else if c = '\\' then
      match r with
      | [] => none
      | e :: r2 =>
        if e = '"' then (parseStringBody r2).map (fun p => ('"' :: p.1, p.2))
        else if e = '\\' then (parseStringBody r2).map (fun p => ('\\' :: p.1, p.2))
        else if e = '/' then (parseStringBody r2).map (fun p => ('/' :: p.1, p.2))
        else if e = 'b' then (parseStringBody r2).map (fun p => (Char.ofNat 8 :: p.1, p.2))
        else if e = 'f' then (parseStringBody r2).map (fun p => (Char.ofNat 12 :: p.1, p.2))
        else if e = 'n' then (parseStringBody r2).map (fun p => (Char.ofNat 10 :: p.1, p.2))
        else if e = 'r' then (parseStringBody r2).map (fun p => (Char.ofNat 13 :: p.1, p.2))
        else if e = 't' then (parseStringBody r2).map (fun p => (Char.ofNat 9 :: p.1, p.2))
        else if e = 'u' then
          match r2 with
          | h1 :: h2 :: h3 :: h4 :: r3 =>
            match parseHex h1, parseHex h2, parseHex h3, parseHex h4 with
            | some a, some b, some c2, some d =>
              (parseStringBody r3).map
                (fun p => (Char.ofNat (a * 4096 + b * 256 + c2 * 16 + d) :: p.1, p.2))
            | _, _, _, _ => none
          | _ => none
        else none
    else if c.toNat < 32 then none
    else (parseStringBody r).map (fun p => (c :: p.1, p.2))

/-- Maximal run of leading decimal digits. -/
def spanDigits : List Char → List Char × List Char
  | [] => ([], [])
  | c :: r =>
    if isDigitCh c then ((c :: (spanDigits r).1), (spanDigits r).2) else ([], c :: r)

def digitsVal (l : List Char) : Nat := l.foldl (fun a c => a * 10 + digitVal c) 0

/-- A JSON number token (integers only in this model; leading-zero forms,
which strict JSON rejects, are accepted). -/
def parseNumJ (l : List Char) : Option (Int × List Char) :=
  match l with
  | [] => none
  | c :: r =>
    if c = '-' then
      if (spanDigits r).1.isEmpty then none
      else some (-(Int.ofNat (digitsVal (spanDigits r).1)), (spanDigits r).2)
    else
      if (spanDigits (c :: r)).1.isEmpty then none
      else some (Int.ofNat (digitsVal (spanDigits (c :: r)).1), (spanDigits (c :: r)).2)

mutual
/-- One JSON value, by recursive descent; the fuel argument dominates the
recursion depth and is always given at least the input length plus one. -/
def parseVal : Nat → List Char → Option (Json × List Char)
  | 0, _ => none
  | _ + 1, [] => none
  | fuel + 1, c :: r =>
    if c = 'n' then
      match r with
      | 'u' :: 'l' :: 'l' :: r2 => some (Json.null, r2)
      | _ => none
    else if c = 't' then
      match r with
      | 'r' :: 'u' :: 'e' :: r2 => some (Json.bool true, r2)
      | _ => none
    else if c = 'f' then
      match r with
      | 'a' :: 'l' :: 's' :: 'e' :: r2 => some (Json.bool false, r2)
      | _ => none
    else if c = '"' then
      (parseStringBody r).map (fun p => (Json.str (String.mk p.1), p.2))
    else if c = '[' then
      if r.head? = some ']' then some (Json.arr JsonList.nil, r.tail)
      else (parseElems fuel r).map (fun p => (Json.arr p.1, p.2))
    else if c = '\x7b' then
      if r.head? = some '\x7d' then some (Json.obj JsonObj.nil, r.tail)
      else (parseMembers fuel r).map (fun p => (Json.obj p.1, p.2))
    else if c = '-' || isDigitCh c then
      (parseNumJ (c :: r)).map (fun p => (Json.num p.1, p.2))
    else none

/-- Comma-separated values up to the closing `]` (at least one element). -/
def parseElems : Nat → List Char → Option (JsonList × List Char)
  | 0, _ => none
  | fuel + 1, l =>
    match parseVal fuel l with
    | none => none
    | some (j, r) =>
      match r with
      | ',' :: r2 =>
        (parseElems fuel r2).map (fun p => (JsonList.cons j p.1, p.2))
      | ']' :: r2 => some (JsonList.cons j JsonList.nil, r2)
      | _ => none

/-- Comma-separated `"key": value` members up to the closing brace (at least
one member). -/
def parseMembers : Nat → List Char → Option (JsonObj × List Char)
  | 0, _ => none
  | fuel + 1, l =>
    match l with
    | '"' :: r0 =>
      match parseStringBody r0 with
      | none => none
      | some (k, r1) =>
        match r1 with
        | ':' :: r2 =>
          match parseVal fuel r2 with
          | none => none
          | some (v, r3) =>
            match r3 with
            | ',' :: r4 =>
              (parseMembers fuel r4).map
                (fun p => (JsonObj.cons (String.mk k) v p.1, p.2))
            | '\x7d' :: r4 => some (JsonObj.cons (String.mk k) v JsonObj.nil, r4)
            | _ => none
        | _ => none
    | _ => none
end

/-- `JSON.parse`: the whole input must be consumed. -/
def jsonParse (s : String) : Option Json :=
  match parseVal (s.data.length + 1) s.data with
  | some (j, []) => some j
  | _ => none

/-! ### Roundtrip for `jsonParse` over `jsonStringify` -/

def headNotDigit : List Char → Bool
  | [] => true
  | c :: _ => !isDigitCh c

theorem digitChar_mod (n : Nat) : digitChar n = digitChar (n % 10) := by
  unfold digitChar
  rw [show 48 + n % 10 % 10 = 48 + n % 10 by omega]

theorem digitChar_spec (n : Nat) :
    isDigitCh (digitChar n) = true ∧ digitVal (digitChar n) = n % 10 := by
  rw [digitChar_mod]
  have h : n % 10 < 10 := by omega
  revert h
  generalize n % 10 = d
  intro h
  revert d h
  decide

theorem digitsVal_append (l : List Char) (c : Char) :
    digitsVal (l ++ [c]) = digitsVal l * 10 + digitVal c := by
  unfold digitsVal
  rw [List.foldl_append]
  rfl

theorem natDigitsAux_spec (fuel : Nat) : ∀ n, n < fuel →
    natDigitsAux fuel n ≠ [] ∧ (∀ c ∈ natDigitsAux fuel n, isDigitCh c = true) ∧
    digitsVal (natDigitsAux fuel n) = n := by
  induction fuel with
  | zero => intro n h; omega
  | succ fuel ih =>
    intro n h
    unfold natDigitsAux
    by_cases h10 : n < 10
    · rw [if_pos h10]
      refine ⟨by simp, ?_, ?_⟩
      · intro c hc
        simp at hc
        rw [hc]
        exact (digitChar_spec n).1
      · show digitsVal ([] ++ [digitChar n]) = n
        rw [digitsVal_append]
        have := (digitChar_spec n).2
        unfold digitsVal
        simp only [List.foldl_nil]
        omega
    · rw [if_neg h10]
      have hdiv : n / 10 < fuel := by omega
      obtain ⟨hne, hdig, hval⟩ := ih (n / 10) hdiv
      refine ⟨by simp, ?_, ?_⟩
      · intro c hc
        rw [List.mem_append] at hc
        rcases hc with hc | hc
        · exact hdig c hc
        · simp at hc
          rw [hc]
          exact (digitChar_spec n).1
      · rw [digitsVal_append, hval]
        have := (digitChar_spec n).2
        omega

theorem natDigits_spec (n : Nat) :
    natDigits n ≠ [] ∧ (∀ c ∈ natDigits n, isDigitCh c = true) ∧
    digitsVal (natDigits n) = n :=
  natDigitsAux_spec (n + 1) n (by omega)

theorem spanDigits_exact (ds : List Char) : ∀ rest, (∀ c ∈ ds, isDigitCh c = true) →
    headNotDigit rest = true → spanDigits (ds ++ rest) = (ds, rest) := by
  induction ds with
  | nil =>
    intro rest hds hrest
    cases rest with
    | nil => rfl
    | cons c r =>
      simp only [headNotDigit, Bool.not_eq_true'] at hrest
      simp only [List.nil_append, spanDigits, hrest]
      rfl
  | cons d ds ih =>
    intro rest hds hrest
    have hd : isDigitCh d = true := hds d (by simp)
    simp only [List.cons_append, spanDigits, hd, if_true, List.append_eq,
      ih rest (fun c hc => hds c (by simp [hc])) hrest]

theorem parseNumJ_intChars (n : Int) (rest : List Char) (hrest : headNotDigit rest = true) :
    parseNumJ (intChars n ++ rest) = some (n, rest) := by
  obtain ⟨hne, hdig, hval⟩ := natDigits_spec n.natAbs
  cases hD : natDigits n.natAbs with
  | nil => exact absurd hD hne
  | cons d ds =>
    have hd : isDigitCh d = true := by
      apply hdig
      rw [hD]
      simp
    have hdne : ¬(d = '-') := by
      intro hcontra
      rw [hcontra] at hd
      exact absurd hd (by decide)
    have hspan : spanDigits ((d :: ds) ++ rest) = (d :: ds, rest) := by
      rw [← hD]
      exact spanDigits_exact _ rest hdig hrest
    by_cases hneg : n < 0
    · unfold intChars
      rw [if_pos hneg, hD]
      show parseNumJ ('-' :: ((d :: ds) ++ rest)) = some (n, rest)
      simp only [parseNumJ]
      rw [if_pos trivial, hspan]
      rw [if_neg (by simp)]
      rw [show d :: ds = natDigits n.natAbs from hD.symm, hval]
      congr 1
      congr 1
      simp only [Int.ofNat_eq_natCast]
      omega
    · unfold intChars
      rw [if_neg hneg, hD]
      show parseNumJ ((d :: ds) ++ rest) = some (n, rest)
      have hcons : (d :: ds) ++ rest = d :: (ds ++ rest) := rfl
      rw [hcons]
      simp only [parseNumJ]
      rw [if_neg hdne]
      rw [show d :: (ds ++ rest) = (d :: ds) ++ rest from rfl, hspan]
      rw [if_neg (by simp)]
      rw [show d :: ds = natDigits n.natAbs from hD.symm, hval]
      congr 1
      congr 1
      simp only [Int.ofNat_eq_natCast]
      omega

theorem parseHex_hexDigit (v : Nat) (h : v < 16) : parseHex (hexDigit v) = some v := by
  revert v h
  decide

theorem psb_quote (r : List Char) : parseStringBody ('"' :: r) = some ([], r) := by
  rw [parseStringBody.eq_def]
  simp

/-- Parsing one escaped characterun-escapes it and recurses. -/
theorem psb_step (c : Char) (r : List Char) :
    parseStringBody (escapeChar c ++ r) =
      (parseStringBody r).map (fun p => (c :: p.1, p.2)) := by
  unfold escapeChar
  by_cases hq : c = '"'
  · subst hq
    rw [if_pos rfl]
    show parseStringBody ('\\' :: '"' :: r) = _
    rw [parseStringBody.eq_def]
    simp
  · rw [if_neg hq]
    by_cases hb : c = '\\'
    · subst hb
      rw [if_pos rfl]
      show parseStringBody ('\\' :: '\\' :: r) = _
      rw [parseStringBody.eq_def]
      simp
    · rw [if_neg hb]
      by_cases hc : c.toNat < 32
      · rw [if_pos hc]
        show parseStringBody
          ('\\' :: 'u' :: '0' :: '0' :: hexDigit (c.toNat / 16) :: hexDigit (c.toNat % 16) :: r) = _
        rw [parseStringBody.eq_def]
        have e3 : parseHex (hexDigit (c.toNat / 16)) = some (c.toNat / 16) :=
          parseHex_hexDigit _ (by omega)
        have e4 : parseHex (hexDigit (c.toNat % 16)) = some (c.toNat % 16) :=
          parseHex_hexDigit _ (by omega)
        have e0 : parseHex '0' = some 0 := by decide
        simp only [e0, e3, e4]
        rw [show (0 : Nat) * 4096 + 0 * 256 + c.toNat / 16 * 16 + c.toNat % 16 = c.toNat by omega,
          Char.ofNat_toNat]
        simp
      · rw [if_neg hc]
        show parseStringBody (c :: r) = _
        rw [parseStringBody.eq_def]
        simp [hq, hb, hc]

theorem parseStringBody_join (cs : List Char) : ∀ rest,
    parseStringBody ((cs.map escapeChar).join ++ '"' :: rest) = some (cs, rest) := by
  induction cs with
  | nil =>
    intro rest
    simpa using psb_quote rest
  | cons c cs ih =>
    intro rest
    simp only [List.map_cons, List.join_cons, List.append_assoc]
    rw [psb_step c _, ih rest]
    rfl

mutual
def jsize : Json → Nat
  | Json.null => 1
  | Json.bool _ => 1
  | Json.num _ => 1
  | Json.str _ => 1
  | Json.arr xs => jlsize xs + 1
  | Json.obj fs => josize fs + 1

def jlsize : JsonList → Nat
  | JsonList.nil => 1
  | JsonList.cons x tl => max (jsize x) (jlsize tl) + 1

def josize : JsonObj → Nat
  | JsonObj.nil => 1
  | JsonObj.cons _ v tl => max (jsize v) (josize tl) + 1
end

theorem hnd_cons (c : Char) (r : List Char) : headNotDigit (c :: r) = !isDigitCh c := rfl

theorem digit_ne_of (c x : Char) (hc : isDigitCh c = true) (hx : isDigitCh x = false) :
    ¬(c = x) := by
  intro h
  rw [h, hx] at hc
  exact absurd hc (by simp)

/-- Every serialized JSON value starts with a character that is neither a
closing bracket nor a closing brace. -/
theorem jsonStr_head (j : Json) : ∃ c r, jsonStr j = c :: r ∧ ¬(c = ']') ∧ ¬(c = '\x7d') := by
  cases j with
  | null => exact ⟨'n', _, rfl, by decide, by decide⟩
  | bool b =>
    cases b with
    | true => exact ⟨'t', _, rfl, by decide, by decide⟩
    | false => exact ⟨'f', _, rfl, by decide, by decide⟩
  | num n =>
    show ∃ c r, intChars n = c :: r ∧ _
    unfold intChars
    by_cases hneg : n < 0
    · rw [if_pos hneg]
      exact ⟨'-', _, rfl, by decide, by decide⟩
    · rw [if_neg hneg]
      obtain ⟨hne, hdig, _⟩ := natDigits_spec n.natAbs
      cases hD : natDigits n.natAbs with
      | nil => exact absurd hD hne
      | cons d ds =>
        have hd : isDigitCh d = true := by
          apply hdig
          rw [hD]
          simp
        exact ⟨d, ds, rfl, digit_ne_of d ']' hd (by decide),
          digit_ne_of d '\x7d' hd (by decide)⟩
  | str s => exact ⟨'"', _, rfl, by decide, by decide⟩
  | arr xs => exact ⟨'[', _, rfl, by decide, by decide⟩
  | obj fs => exact ⟨'\x7b', _, rfl, by decide, by decide⟩

mutual
/-- Parsing the serialization of a value consumes exactly it. The `rest`
continuation may not begin with a digit (only relevant after a number, whose
digit run is read maximally). -/
theorem parseVal_rt (j : Json) (fuel : Nat) (rest : List Char) (hf : jsize j ≤ fuel)
    (hrest : headNotDigit rest = true) :
    parseVal fuel (jsonStr j ++ rest) = some (j, rest) := by
  have hf1 : 1 ≤ jsize j := by
    cases j <;> simp [jsize] <;> omega
  obtain ⟨f, rfl⟩ : ∃ f, fuel = f + 1 := ⟨fuel - 1, by omega⟩
  cases j with
  | null =>
    show parseVal (f + 1) ('n' :: 'u' :: 'l' :: 'l' :: rest) = _
    simp only [parseVal]
    rw [if_pos trivial]
  | bool b =>
    cases b with
    | true =>
      show parseVal (f + 1) ('t' :: 'r' :: 'u' :: 'e' :: rest) = _
      simp only [parseVal]
      rw [if_neg (by decide), if_pos trivial]
    | false =>
      show parseVal (f + 1) ('f' :: 'a' :: 'l' :: 's' :: 'e' :: rest) = _
      simp only [parseVal]
      rw [if_neg (by decide), if_neg (by decide), if_pos trivial]
  | num n =>
    show parseVal (f + 1) (intChars n ++ rest) = _
    obtain ⟨hne, hdig, _⟩ := natDigits_spec n.natAbs
    have hnum := parseNumJ_intChars n rest hrest
    unfold intChars at *
    by_cases hneg : n < 0
    · rw [if_pos hneg] at *
      show parseVal (f + 1) ('-' :: (natDigits n.natAbs ++ rest)) = _
      simp only [parseVal]
      rw [if_neg (by decide), if_neg (by decide), if_neg (by decide), if_neg (by decide),
        if_neg (by decide), if_neg (by decide), if_pos (by decide)]
      rw [show '-' :: (natDigits n.natAbs ++ rest) = ('-' :: natDigits n.natAbs) ++ rest from rfl,
        hnum]
      rfl
    · rw [if_neg hneg] at *
      cases hD : natDigits n.natAbs with
      | nil => exact absurd hD hne
      | cons d ds =>
        rw [hD] at hnum
        have hd : isDigitCh d = true := by
          apply hdig
          rw [hD]
          simp
        show parseVal (f + 1) (d :: (ds ++ rest)) = _
        simp only [parseVal]
        rw [if_neg (digit_ne_of d 'n' hd (by decide)), if_neg (digit_ne_of d 't' hd (by decide)),
          if_neg (digit_ne_of d 'f' hd (by decide)), if_neg (digit_ne_of d '"' hd (by decide)),
          if_neg (digit_ne_of d '[' hd (by decide)), if_neg (digit_ne_of d '\x7b' hd (by decide)),
          if_pos (by simp [hd])]
        rw [show d :: (ds ++ rest) = (d :: ds) ++ rest from rfl, hnum]
        rfl
  | str s =>
    show parseVal (f + 1) (escStr s ++ rest) = _
    rw [show escStr s ++ rest = '"' :: ((s.data.map escapeChar).join ++ '"' :: rest) by
      simp [escStr]]
    simp only [parseVal]
    rw [if_neg (by decide), if_neg (by decide), if_neg (by decide), if_pos (by decide)]
    rw [parseStringBody_join s.data rest]
    rfl
  | arr xs =>
    show parseVal (f + 1) (('[' :: jsonStrList xs ++ [']']) ++ rest) = _
    rw [show ('[' :: jsonStrList xs ++ [']']) ++ rest =
      '[' :: (jsonStrList xs ++ ']' :: rest) by simp]
    simp only [parseVal]
    rw [if_neg (by decide), if_neg (by decide), if_neg (by decide), if_neg (by decide),
      if_pos (by decide)]
    cases xs with
    | nil =>
      rw [show jsonStrList JsonList.nil ++ ']' :: rest = ']' :: rest from rfl]
      rw [if_pos (show (']' :: rest).head? = some ']' from rfl)]
      rfl
    | cons x tl =>
      obtain ⟨c0, r0, hx, hc1, _⟩ := jsonStr_head x
      have hhq : (jsonStrList (JsonList.cons x tl) ++ ']' :: rest).head? = some c0 := by
        cases tl with
        | nil =>
          show (jsonStr x ++ ']' :: rest).head? = _
          rw [hx]
          rfl
        | cons y tl2 =>
          show ((jsonStr x ++ ',' :: jsonStrList (JsonList.cons y tl2)) ++ ']' :: rest).head? = _
          rw [hx]
          rfl
      rw [if_neg (by rw [hhq]; simp [hc1])]
      have hsz : jlsize (JsonList.cons x tl) ≤ f := by
        have h2 : jsize (Json.arr (JsonList.cons x tl)) = jlsize (JsonList.cons x tl) + 1 := rfl
        omega
      rw [parseElems_rt (JsonList.cons x tl) f rest (by simp) hsz]
      rfl
  | obj fs =>
    show parseVal (f + 1) (('\x7b' :: jsonStrObj fs ++ ['\x7d']) ++ rest) = _
    rw [show ('\x7b' :: jsonStrObj fs ++ ['\x7d']) ++ rest =
      '\x7b' :: (jsonStrObj fs ++ '\x7d' :: rest) by simp]
    simp only [parseVal]
    rw [if_neg (by decide), if_neg (by decide), if_neg (by decide), if_neg (by decide),
      if_neg (by decide), if_pos (by decide)]
    cases fs with
    | nil =>
      rw [show jsonStrObj JsonObj.nil ++ '\x7d' :: rest = '\x7d' :: rest from rfl]
      rw [if_pos (show ('\x7d' :: rest).head? = some '\x7d' from rfl)]
      rfl
    | cons k v tl =>
      have hhq : (jsonStrObj (JsonObj.cons k v tl) ++ '\x7d' :: rest).head? = some '"' := by
        cases tl with
        | nil =>
          show ((escStr k ++ ':' :: jsonStr v) ++ '\x7d' :: rest).head? = _
          rfl
        | cons k2 v2 tl2 =>
          show ((escStr k ++ ':' :: jsonStr v ++ ',' :: jsonStrObj (JsonObj.cons k2 v2 tl2))
            ++ '\x7d' :: rest).head? = _
          rfl
      rw [if_neg (by rw [hhq]; decide)]
      have hsz : josize (JsonObj.cons k v tl) ≤ f := by
        have h2 : jsize (Json.obj (JsonObj.cons k v tl)) = josize (JsonObj.cons k v tl) + 1 := rfl
        omega
      rw [parseMembers_rt (JsonObj.cons k v tl) f rest (by simp) hsz]
      rfl

/-- Parsing the serialized elements of a nonempty array up to `]`. -/
theorem parseElems_rt (xs : JsonList) (fuel : Nat) (rest : List Char)
    (hxs : xs ≠ JsonList.nil) (hf : jlsize xs ≤ fuel) :
    parseElems fuel (jsonStrList xs ++ ']' :: rest) = some (xs, rest) := by
  cases xs with
  | nil => exact absurd rfl hxs
  | cons x tl =>
    have hf1 : 1 ≤ jsize x := by
      cases x <;> simp [jsize] <;> omega
    have hsz : max (jsize x) (jlsize tl) + 1 ≤ fuel := hf
    obtain ⟨f, rfl⟩ : ∃ f, fuel = f + 1 := ⟨fuel - 1, by omega⟩
    simp only [parseElems]
    cases tl with
    | nil =>
      show (match parseVal f (jsonStr x ++ ']' :: rest) with
        | none => none
        | some (j, r) => match r with
          | ',' :: r2 => (parseElems f r2).map (fun (p : JsonList × List Char) => (JsonList.cons j p.1, p.2))
          | ']' :: r2 => some (JsonList.cons j JsonList.nil, r2)
          | _ => none) = _
      rw [parseVal_rt x f (']' :: rest) (by simp [jlsize] at hsz; omega) (by rw [hnd_cons]; decide)]
      rfl
    | cons y tl2 =>
      show (match parseVal f ((jsonStr x ++ ',' :: jsonStrList (JsonList.cons y tl2)) ++ ']' :: rest) with
        | none => none
        | some (j, r) => match r with
          | ',' :: r2 => (parseElems f r2).map (fun (p : JsonList × List Char) => (JsonList.cons j p.1, p.2))
          | ']' :: r2 => some (JsonList.cons j JsonList.nil, r2)
          | _ => none) = _
      rw [show (jsonStr x ++ ',' :: jsonStrList (JsonList.cons y tl2)) ++ ']' :: rest =
        jsonStr x ++ ',' :: (jsonStrList (JsonList.cons y tl2) ++ ']' :: rest) by simp]
      rw [parseVal_rt x f (',' :: (jsonStrList (JsonList.cons y tl2) ++ ']' :: rest))
        (by simp [jlsize] at hsz; omega) (by rw [hnd_cons]; decide)]
      show (parseElems f (jsonStrList (JsonList.cons y tl2) ++ ']' :: rest)).map
        (fun (p : JsonList × List Char) => (JsonList.cons x p.1, p.2)) = _
      rw [parseElems_rt (JsonList.cons y tl2) f rest (by simp) (by simp [jlsize] at hsz ⊢; omega)]
      rfl

/-- Parsing the serialized members of a nonempty object up to the closing
brace. -/
theorem parseMembers_rt (fs : JsonObj) (fuel : Nat) (rest : List Char)
    (hfs : fs ≠ JsonObj.nil) (hf : josize fs ≤ fuel) :
    parseMembers fuel (jsonStrObj fs ++ '\x7d' :: rest) = some (fs, rest) := by
  cases fs with
  | nil => exact absurd rfl hfs
  | cons k v tl =>
    have hf1 : 1 ≤ jsize v := by
      cases v <;> simp [jsize] <;> omega
    have hsz : max (jsize v) (josize tl) + 1 ≤ fuel := hf
    obtain ⟨f, rfl⟩ : ∃ f, fuel = f + 1 := ⟨fuel - 1, by omega⟩
    cases tl with
    | nil =>
      rw [show jsonStrObj (JsonObj.cons k v JsonObj.nil) ++ '\x7d' :: rest =
        '"' :: ((k.data.map escapeChar).join ++ '"' :: (':' :: (jsonStr v ++ '\x7d' :: rest)))
        by show (escStr k ++ ':' :: jsonStr v) ++ '\x7d' :: rest = _; simp [escStr]]
      simp only [parseMembers]
      rw [parseStringBody_join k.data (':' :: (jsonStr v ++ '\x7d' :: rest))]
      show (match parseVal f (jsonStr v ++ '\x7d' :: rest) with
        | none => none
        | some (v2, r3) => match r3 with
          | ',' :: r4 => (parseMembers f r4).map
              (fun (p : JsonObj × List Char) => (JsonObj.cons (String.mk k.data) v2 p.1, p.2))
          | '\x7d' :: r4 => some (JsonObj.cons (String.mk k.data) v2 JsonObj.nil, r4)
          | _ => none) = _
      rw [parseVal_rt v f ('\x7d' :: rest) (by omega) (by rw [hnd_cons]; decide)]
      rfl
    | cons k2 v2 tl2 =>
      rw [show jsonStrObj (JsonObj.cons k v (JsonObj.cons k2 v2 tl2)) ++ '\x7d' :: rest =
        '"' :: ((k.data.map escapeChar).join ++ '"' :: (':' :: (jsonStr v ++
          ',' :: (jsonStrObj (JsonObj.cons k2 v2 tl2) ++ '\x7d' :: rest))))
        by show (escStr k ++ ':' :: jsonStr v ++ ',' :: jsonStrObj (JsonObj.cons k2 v2 tl2))
             ++ '\x7d' :: rest = _; simp [escStr]]
      simp only [parseMembers]
      rw [parseStringBody_join k.data
        (':' :: (jsonStr v ++ ',' :: (jsonStrObj (JsonObj.cons k2 v2 tl2) ++ '\x7d' :: rest)))]
      show (match parseVal f (jsonStr v ++ ',' :: (jsonStrObj (JsonObj.cons k2 v2 tl2)
          ++ '\x7d' :: rest)) with
        | none => none
        | some (w, r3) => match r3 with
          | ',' :: r4 => (parseMembers f r4).map
              (fun (p : JsonObj × List Char) => (JsonObj.cons (String.mk k.data) w p.1, p.2))
          | '\x7d' :: r4 => some (JsonObj.cons (String.mk k.data) w JsonObj.nil, r4)
          | _ => none) = _
      rw [parseVal_rt v f (',' :: (jsonStrObj (JsonObj.cons k2 v2 tl2) ++ '\x7d' :: rest))
        (by omega) (by rw [hnd_cons]; decide)]
      show (parseMembers f (jsonStrObj (JsonObj.cons k2 v2 tl2) ++ '\x7d' :: rest)).map
        (fun (p : JsonObj × List Char) => (JsonObj.cons (String.mk k.data) v p.1, p.2)) = _
      rw [parseMembers_rt (JsonObj.cons k2 v2 tl2) f rest (by simp) (by
        simp [josize] at hsz ⊢
        omega)]
      rfl
end

theorem intChars_len (n : Int) : 1 ≤ (intChars n).length := by
  obtain ⟨hne, _, _⟩ := natDigits_spec n.natAbs
  unfold intChars
  by_cases hneg : n < 0
  · rw [if_pos hneg]
    simp
  · rw [if_neg hneg]
    cases hD : natDigits n.natAbs with
    | nil => exact absurd hD hne
    | cons d ds => simp

theorem escStr_len (s : String) : (escStr s).length = (s.data.map escapeChar).join.length + 2 := by
  unfold escStr
  simp

mutual
theorem jsize_le (j : Json) : jsize j ≤ (jsonStr j).length := by
  cases j with
  | null => simp [jsize, jsonStr]
  | bool b => cases b <;> simp [jsize, jsonStr]
  | num n =>
    show jsize (Json.num n) ≤ (intChars n).length
    have := intChars_len n
    simp only [jsize]
    omega
  | str s =>
    show jsize (Json.str s) ≤ (escStr s).length
    rw [escStr_len]
    simp only [jsize]
    omega
  | arr xs =>
    show jlsize xs + 1 ≤ ('[' :: jsonStrList xs ++ [']']).length
    have := jlsize_le xs
    simp only [List.length_cons, List.length_append, List.length_cons, List.length_nil]
    omega
  | obj fs =>
    show josize fs + 1 ≤ ('\x7b' :: jsonStrObj fs ++ ['\x7d']).length
    have := josize_le fs
    simp only [List.length_cons, List.length_append, List.length_cons, List.length_nil]
    omega

theorem jlsize_le (xs : JsonList) : jlsize xs ≤ (jsonStrList xs).length + 1 := by
  cases xs with
  | nil => simp [jlsize, jsonStrList]
  | cons x tl =>
    have h1 := jsize_le x
    have h2 := jlsize_le tl
    cases tl with
    | nil =>
      show max (jsize x) (jlsize JsonList.nil) + 1 ≤ (jsonStr x).length + 1
      have : jlsize JsonList.nil = 1 := rfl
      have hx1 : 1 ≤ jsize x := by cases x <;> simp [jsize] <;> omega
      omega
    | cons y tl2 =>
      show max (jsize x) (jlsize (JsonList.cons y tl2)) + 1 ≤
        (jsonStr x ++ ',' :: jsonStrList (JsonList.cons y tl2)).length + 1
      simp only [List.length_append, List.length_cons]
      omega

theorem josize_le (fs : JsonObj) : josize fs ≤ (jsonStrObj fs).length + 1 := by
  cases fs with
  | nil => simp [josize, jsonStrObj]
  | cons k v tl =>
    have h1 := jsize_le v
    have h2 := josize_le tl
    cases tl with
    | nil =>
      show max (jsize v) (josize JsonObj.nil) + 1 ≤ (escStr k ++ ':' :: jsonStr v).length + 1
      have h3 : josize JsonObj.nil = 1 := rfl
      have h4 := escStr_len k
      simp only [List.length_append, List.length_cons]
      omega
    | cons k2 v2 tl2 =>
      show max (jsize v) (josize (JsonObj.cons k2 v2 tl2)) + 1 ≤
        (escStr k ++ ':' :: jsonStr v ++ ',' :: jsonStrObj (JsonObj.cons k2 v2 tl2)).length + 1
      have h4 := escStr_len k
      simp only [List.length_append, List.length_cons]
      omega
end

/-- The headline JSON roundtrip: parsing a serialized value gives it back. -/
theorem jsonParse_stringify (j : Json) : jsonParse (jsonStringify j) = some j := by
  unfold jsonParse jsonStringify
  rw [show (String.mk (jsonStr j)).data = jsonStr j from rfl]
  have h := parseVal_rt j ((jsonStr j).length + 1) [] (by have := jsize_le j; omega) rfl
  rw [List.append_nil] at h
  rw [h]

/-! ## Base64: `btoa` and `atob`.

`btoa` throws precisely when some code unit of its argument exceeds 255
(modeled by returning `none`); `atob` here is a strict decoder (the browser
built-in is "forgiving": it also strips ASCII whitespace, which never occurs
in a `btoa` output). -/

def b64Char (n : Nat) : Char :=
  if n < 26 then Char.ofNat (65 + n)
  else if n < 52 then Char.ofNat (97 + (n - 26))
  else if n < 62 then Char.ofNat (48 + (n - 52))
  else if n = 62 then '+'
  else '/'

def b64Val (c : Char) : Option Nat :=
  if 65 ≤ c.toNat && c.toNat ≤ 90 then some (c.toNat - 65)
  else if 97 ≤ c.toNat && c.toNat ≤ 122 then some (c.toNat - 97 + 26)
  else if 48 ≤ c.toNat && c.toNat ≤ 57 then some (c.toNat - 48 + 52)
  else if c = '+' then some 62
  else if c = '/' then some 63
  else none

def b64encode : List Nat → List Char
  | [] => []
  | [b1] => [b64Char (b1 / 4), b64Char (b1 % 4 * 16), '=', '=']
  | [b1, b2] => [b64Char (b1 / 4), b64Char (b1 % 4 * 16 + b2 / 16), b64Char (b2 % 16 * 4), '=']
  | b1 :: b2 :: b3 :: rest =>
    b64Char (b1 / 4) :: b64Char (b1 % 4 * 16 + b2 / 16) ::
      b64Char (b2 % 16 * 4 + b3 / 64) :: b64Char (b3 % 64) :: b64encode rest

def b64decode : List Char → Option (List Nat)
  | [] => some []
  | c1 :: c2 :: c3 :: c4 :: rest =>
    match b64Val c1, b64Val c2 with
    | some v1, some v2 =>
      if c3 = '=' then
        if c4 = '=' then (if rest.isEmpty then some [v1 * 4 + v2 / 16] else none) else none
      else
        match b64Val c3 with
        | some v3 =>
          if c4 = '=' then
            if rest.isEmpty then some [v1 * 4 + v2 / 16, v2 % 16 * 16 + v3 / 4] else none
          else
            match b64Val c4 with
            | some v4 =>
              (b64decode rest).map
                (fun bs => (v1 * 4 + v2 / 16) :: (v2 % 16 * 16 + v3 / 4) :: ((v3 % 4 * 64 + v4) :: bs))
            | none => none
        | none => none
    | _, _ => none
  | _ => none

theorem b64Val_b64Char (v : Nat) (h : v < 64) : b64Val (b64Char v) = some v := by
  revert v h
  decide

theorem b64Char_ne_eq (v : Nat) (h : v < 64) : ¬(b64Char v = '=') := by
  revert v h
  decide

theorem b64_roundtrip (l : List Nat) (hb : ∀ b ∈ l, b < 256) :
    b64decode (b64encode l) = some l := by
  induction l using b64encode.induct with
  | case1 => rfl
  | case2 b1 =>
    have h1 : b1 < 256 := hb b1 (by simp)
    show b64decode [b64Char (b1 / 4), b64Char (b1 % 4 * 16), '=', '='] = _
    simp only [b64decode]
    rw [b64Val_b64Char (b1 / 4) (by omega), b64Val_b64Char (b1 % 4 * 16) (by omega)]
    dsimp only
    rw [if_pos trivial, if_pos trivial,
      if_pos (show ([] : List Char).isEmpty = true from rfl)]
    rw [show b1 / 4 * 4 + b1 % 4 * 16 / 16 = b1 by omega]
  | case3 b1 b2 =>
    have h1 : b1 < 256 := hb b1 (by simp)
    have h2 : b2 < 256 := hb b2 (by simp)
    show b64decode [b64Char (b1 / 4), b64Char (b1 % 4 * 16 + b2 / 16),
      b64Char (b2 % 16 * 4), '='] = _
    simp only [b64decode]
    rw [b64Val_b64Char (b1 / 4) (by omega), b64Val_b64Char (b1 % 4 * 16 + b2 / 16) (by omega)]
    dsimp only
    rw [if_neg (b64Char_ne_eq (b2 % 16 * 4) (by omega)),
      b64Val_b64Char (b2 % 16 * 4) (by omega)]
    dsimp only
    rw [if_pos trivial, if_pos (show ([] : List Char).isEmpty = true from rfl)]
    rw [show b1 / 4 * 4 + (b1 % 4 * 16 + b2 / 16) / 16 = b1 by omega,
      show (b1 % 4 * 16 + b2 / 16) % 16 * 16 + b2 % 16 * 4 / 4 = b2 by omega]
  | case4 b1 b2 b3 rest ih =>
    have h1 : b1 < 256 := hb b1 (by simp)
    have h2 : b2 < 256 := hb b2 (by simp)
    have h3 : b3 < 256 := hb b3 (by simp)
    show b64decode (b64Char (b1 / 4) :: b64Char (b1 % 4 * 16 + b2 / 16) ::
      b64Char (b2 % 16 * 4 + b3 / 64) :: b64Char (b3 % 64) :: b64encode rest) = _
    simp only [b64decode]
    rw [b64Val_b64Char (b1 / 4) (by omega), b64Val_b64Char (b1 % 4 * 16 + b2 / 16) (by omega)]
    dsimp only
    rw [if_neg (b64Char_ne_eq (b2 % 16 * 4 + b3 / 64) (by omega)),
      b64Val_b64Char (b2 % 16 * 4 + b3 / 64) (by omega)]
    dsimp only
    rw [if_neg (b64Char_ne_eq (b3 % 64) (by omega)),
      b64Val_b64Char (b3 % 64) (by omega)]
    dsimp only
    rw [ih (fun b hbm => hb b (by simp [hbm]))]
    rw [show b1 / 4 * 4 + (b1 % 4 * 16 + b2 / 16) / 16 = b1 by omega,
      show (b1 % 4 * 16 + b2 / 16) % 16 * 16 + (b2 % 16 * 4 + b3 / 64) / 4 = b2 by omega,
      show (b2 % 16 * 4 + b3 / 64) % 4 * 64 + b3 % 64 = b3 by omega]
    rfl

/-- `window.btoa`: fails (throws) when a character is outside Latin-1. -/
def btoa (s : String) : Option String :=
  if s.data.all (fun c => c.toNat ≤ 255) then
    some (String.mk (b64encode (s.data.map Char.toNat)))
  else none

/-- `window.atob` (strict). -/
def atob (s : String) : Option String :=
  (b64decode s.data).map (fun bs => String.mk (bs.map Char.ofNat))

theorem atob_btoa (s : String) (enc : String) (h : btoa s = some enc) :
    atob enc = some s := by
  unfold btoa at h
  by_cases hall : s.data.all (fun c => c.toNat ≤ 255)
  · rw [if_pos hall] at h
    obtain ⟨rfl⟩ : String.mk (b64encode (s.data.map Char.toNat)) = enc := by
      injection h
    unfold atob
    rw [show (String.mk (b64encode (s.data.map Char.toNat))).data =
      b64encode (s.data.map Char.toNat) from rfl]
    rw [b64_roundtrip (s.data.map Char.toNat) (by
      intro b hbm
      rw [List.mem_map] at hbm
      obtain ⟨c, hc, rfl⟩ := hbm
      rw [List.all_eq_true] at hall
      have h2 : c.toNat ≤ 255 := by simpa using hall c hc
      omega)]
    dsimp only [Option.map]
    congr 1
    rw [show (s.data.map Char.toNat).map Char.ofNat = s.data.map (fun c => Char.ofNat c.toNat)
      from by rw [List.map_map]; rfl]
    rw [show s.data.map (fun c => Char.ofNat c.toNat) = s.data.map id from
      List.map_congr_left (fun c _ => Char.ofNat_toNat c)]
    rw [List.map_id]
  · rw [if_neg hall] at h
    exact absurd h (by simp)

/-! ## JavaScript-value helpers over `Json` -/

/-- JavaScript truthiness of a parsed JSON value. -/
def jsTruthy : Json → Bool
  | Json.null => false
  | Json.bool b => b
  | Json.num n => decide (¬(n = 0))
  | Json.str s => decide (¬(s = ""))
  | Json.arr _ => true
  | Json.obj _ => true

mutual
/-- Property access `j[k]`; `none` plays the role of `undefined`. On a
duplicate key `JSON.parse` keeps the last occurrence, hence the
later-binding-wins lookup. -/
def getProp : Json → String → Option Json
  | Json.obj fs, k => objGet fs k
  | _, _ => none

def objGet : JsonObj → String → Option Json
  | JsonObj.nil, _ => none
  | JsonObj.cons k2 v tl, k =>
    match objGet tl k with
    | some w => some w
    | none => if k2 = k then some v else none
end

def isStrProp (j : Json) (k : String) : Bool :=
  match getProp j k with
  | some (Json.str _) => true
  | _ => false

/-- The validation applied to every imported/persisted entry:
`file && typeof file.id === 'string' && typeof file.fileName === 'string' &&
typeof file.cloudinaryUrl === 'string'`. -/
def validEntryB (j : Json) : Bool :=
  jsTruthy j && isStrProp j "id" && isStrProp j "fileName" && isStrProp j "cloudinaryUrl"

/-- Read a string property; a missing or non-string value becomes `""` (the
JavaScript value would be `undefined`, which every downstream use in scope —
truthiness tests, `new Date` parsing to NaN, the no-op delete call — treats
the same way as the empty string). -/
def strPropD (j : Json) (k : String) : String :=
  match getProp j k with
  | some (Json.str s) => s
  | _ => ""

/-- Read a numeric property with a default for missing/non-numeric values. -/
def numPropD (j : Json) (k : String) : Nat :=
  match getProp j k with
  | some (Json.num n) => n.toNat
  | _ => 0

/-- `j[k] || d` for an expected-string field: a present nonempty string is
kept, anything falsy gives the default. (A truthy non-string value would be
kept as-is by JavaScript; such a value cannot flow into the `String`-typed
record fields modeled here and is collapsed to the default.) -/
def strPropOr (j : Json) (k : String) (d : String) : String :=
  match getProp j k with
  | some (Json.str s) => if s = "" then d else s
  | _ => d

/-- `j[k] || 0` for the numeric `fileSize` field. -/
def numPropOr (j : Json) (k : String) (d : Nat) : Nat :=
  match getProp j k with
  | some (Json.num n) => if n = 0 then d else n.toNat
  | _ => d

/-! ## The shared-link module (`generateShareLink` / `parseShareLink`) -/

/-- The object literal built for each shared record (same fields, same
order as the source's `files.map(file => ({...}))`). -/
def shareFileJson (f : FileInfo) : Json :=
  Json.obj (JsonObj.cons "id" (Json.str f.id)
    (JsonObj.cons "fileName" (Json.str f.fileName)
    (JsonObj.cons "uploadTime" (Json.str f.uploadTime)
    (JsonObj.cons "expiresAt" (Json.str f.expiresAt)
    (JsonObj.cons "fileSize" (Json.num (Int.ofNat f.fileSize))
    (JsonObj.cons "cloudinaryUrl" (Json.str f.cloudinaryUrl)
    (JsonObj.cons "fileType" (Json.str f.fileType)
    (JsonObj.cons "publicId" (Json.str f.publicId) JsonObj.nil))))))))

def jlOfList : List Json → JsonList
  | [] => JsonList.nil
  | x :: xs => JsonList.cons x (jlOfList xs)

def jlToList : JsonList → List Json
  | JsonList.nil => []
  | JsonList.cons x xs => x :: jlToList xs

/-- The `shareData` object: a timestamp (the wall clock's ISO string) plus
the mapped file list. -/
def shareDataJson (now : Nat) (files : List FileInfo) : Json :=
  Json.obj (JsonObj.cons "timestamp" (Json.str (toISOString now))
    (JsonObj.cons "files" (Json.arr (jlOfList (files.map shareFileJson))) JsonObj.nil))

/-- The `encoded` value `btoa(JSON.stringify(shareData))`; `Except.error`
models the thrown `无法生成分享链接`. -/
def generateShareParam (now : Nat) (files : List FileInfo) : Except Unit String :=
  match btoa (jsonStringify (shareDataJson now files)) with
  | some enc => Except.ok enc
  | none => Except.error ()

/-- `generateShareLink(files)`: `baseUrl?share=encoded`. -/
def generateShareLink (now : Nat) (baseUrl : String) (files : List FileInfo) :
    Except Unit String :=
  (generateShareParam now files).map (fun enc => baseUrl ++ "?share=" ++ enc)

/-- The per-entry conversion in `parseShareLink`'s `.map(...)`, with the
`||`-defaults of the source. -/
def shareEntryToFileInfo (now : Nat) (j : Json) : FileInfo :=
  { id := strPropD j "id"
    fileName := strPropD j "fileName"
    uploadTime := strPropOr j "uploadTime" (toISOString now)
    expiresAt := strPropOr j "expiresAt" (toISOString (now + 24 * 60 * 60 * 1000))
    fileSize := numPropOr j "fileSize" 0
    cloudinaryUrl := strPropD j "cloudinaryUrl"
    fileType := strPropOr j "fileType" "application/octet-stream"
    publicId := strPropOr j "publicId" "" }

/-- `parseShareLink(shareParam)`: base64-decode, JSON-parse, require a
`files` array, validate each entry's required string fields, convert.
`Except.error` models the thrown `无效的分享链接`. -/
def parseShareLink (now : Nat) (shareParam : String) : Except Unit (List FileInfo) :=
  match atob shareParam with
  | none => Except.error ()
  | some decoded =>
    match jsonParse decoded with
    | none => Except.error ()
    | some sd =>
      match getProp sd "files" with
      | some (Json.arr xs) =>
        Except.ok (((jlToList xs).filter validEntryB).map (shareEntryToFileInfo now))
      | _ => Except.error ()

/-! ## `getStoredFiles` from `src/lib/utils.ts` -/

/-- Raw conversion of a validated entry to a record (no `||` defaults here;
`getStoredFiles` keeps the objects as parsed). -/
def jsonToFileInfo (j : Json) : FileInfo :=
  { id := strPropD j "id"
    fileName := strPropD j "fileName"
    uploadTime := strPropD j "uploadTime"
    expiresAt := strPropD j "expiresAt"
    fileSize := numPropD j "fileSize"
    cloudinaryUrl := strPropD j "cloudinaryUrl"
    fileType := strPropD j "fileType"
    publicId := strPropD j "publicId" }

/-- Entries of the parsed array that pass the required-field validation,
converted to records. -/
def readValidEntries (xs : JsonList) : List FileInfo :=
  ((jlToList xs).filter validEntryB).map jsonToFileInfo

/-- Result of one `getStoredFiles()` call: the returned list, the storage
value afterwards (`none` = key removed), and the remote deletion attempts
made by the inline expiry sweep. -/
structure ReadResult where
  files : List FileInfo
  newStored : Option String
  deletions : List (String × String)
  deriving DecidableEq, Repr

/-- `getStoredFiles()` with the wall clock and the current persisted value
passed explicitly. A missing or empty stored value returns `[]` untouched; a
value that fails to parse as a JSON array hits the `catch` which removes the
corrupted key and returns `[]`; otherwise entries are validated, swept for
expiry, and the surviving set is written back only when something expired. -/
def getStoredFiles (now : Nat) (stored : Option String) : ReadResult :=
  match stored with
  | none => ⟨[], none, []⟩
  | some s =>
    if s = "" then ⟨[], some s, []⟩
    else
      match jsonParse s with
      | some (Json.arr xs) =>
        ⟨(cleanupExpiredFilesSync now (readValidEntries xs)).valid,
          if (cleanupExpiredFilesSync now (readValidEntries xs)).hasExpired then
            some (jsonStringify (Json.arr (jlOfList
              (((cleanupExpiredFilesSync now (readValidEntries xs)).valid).map shareFileJson))))
          else some s,
          (cleanupExpiredFilesSync now (readValidEntries xs)).deletions⟩
      | some _ => ⟨[], none, []⟩
      | none => ⟨[], none, []⟩

/-! ## Specification lemmas: the stable insertion sort -/

theorem perm_insBy (lt : FileInfo → FileInfo → Bool) (f : FileInfo) (l : List FileInfo) :
    (insBy lt f l).Perm (f :: l) := by
  induction l with
  | nil => exact List.Perm.refl _
  | cons g rest ih =>
    unfold insBy
    by_cases h : lt g f = true
    · rw [if_pos h]
      exact (ih.cons g).trans (List.Perm.swap f g rest)
    · rw [if_neg h]

theorem perm_sortByB (lt : FileInfo → FileInfo → Bool) (l : List FileInfo) :
    (sortByB lt l).Perm l := by
  induction l with
  | nil => exact List.Perm.refl _
  | cons f rest ih =>
    exact (perm_insBy lt f (sortByB lt rest)).trans (ih.cons f)

theorem mem_sortByB (lt : FileInfo → FileInfo → Bool) (l : List FileInfo) (a : FileInfo) :
    a ∈ sortByB lt l ↔ a ∈ l :=
  (perm_sortByB lt l).mem_iff

/-- A membership-aware strengthening of `List.Pairwise.imp`. -/
theorem pairwise_imp_mem {α : Type} {R S : α → α → Prop} (l : List α)
    (h : ∀ a b, a ∈ l → b ∈ l → R a b → S a b) (hp : l.Pairwise R) : l.Pairwise S := by
  induction l with
  | nil => exact List.Pairwise.nil
  | cons x xs ih =>
    rw [List.pairwise_cons] at hp ⊢
    refine ⟨fun y hy => h x y (List.mem_cons_self x xs) (List.mem_cons_of_mem x hy) (hp.1 y hy),
      ih (fun a b ha hb => h a b (List.mem_cons_of_mem x ha) (List.mem_cons_of_mem x hb)) hp.2⟩

theorem pairwise_and_of {α : Type} {R S : α → α → Prop} (l : List α)
    (h1 : l.Pairwise R) (h2 : l.Pairwise S) : l.Pairwise (fun a b => R a b ∧ S a b) := by
  induction l with
  | nil => exact List.Pairwise.nil
  | cons x xs ih =>
    rw [List.pairwise_cons] at h1 h2 ⊢
    exact ⟨fun y hy => ⟨h1.1 y hy, h2.1 y hy⟩, ih h1.2 h2.2⟩

/-- Inserting into a list sorted by the comparator keeps it sorted, provided the
comparator is asymmetric and, on the elements at hand, pseudo-transitive. -/
theorem pairwise_insBy (lt : FileInfo → FileInfo → Bool) (f : FileInfo) (l : List FileInfo)
    (hA : ∀ a b : FileInfo, lt a b = true → lt b a = false)
    (hT : ∀ a b c : FileInfo, a ∈ f :: l → b ∈ f :: l → c ∈ f :: l →
      lt b a = false → lt c b = false → lt c a = false)
    (hl : l.Pairwise (fun x y => lt y x = false)) :
    (insBy lt f l).Pairwise (fun x y => lt y x = false) := by
  induction l with
  | nil => simp [insBy]
  | cons g rest ih =>
    rw [List.pairwise_cons] at hl
    have hsub : ∀ x : FileInfo, x ∈ f :: rest → x ∈ f :: g :: rest := by
      intro x hx
      rcases List.mem_cons.1 hx with rfl | hx2
      · exact List.mem_cons_self _ _
      · exact List.mem_cons_of_mem _ (List.mem_cons_of_mem _ hx2)
    unfold insBy
    by_cases h : lt g f = true
    · rw [if_pos h]
      rw [List.pairwise_cons]
      constructor
      · intro y hy
        have hy2 : y ∈ f :: rest := (perm_insBy lt f rest).subset hy
        rcases List.mem_cons.1 hy2 with rfl | hyr
        · exact hA g y h
        · exact hl.1 y hyr
      · exact ih (fun a b c ha hb hc => hT a b c (hsub a ha) (hsub b hb) (hsub c hc)) hl.2
    · rw [if_neg h]
      rw [List.pairwise_cons]
      constructor
      · intro y hy
        rcases List.mem_cons.1 hy with rfl | hyr
        · exact Bool.not_eq_true _ ▸ h
        · exact hT f g y (List.mem_cons_self _ _)
            (List.mem_cons_of_mem _ (List.mem_cons_self _ _))
            (List.mem_cons_of_mem _ (List.mem_cons_of_mem _ hyr))
            (Bool.not_eq_true _ ▸ h) (hl.1 y hyr)
      · rw [List.pairwise_cons]
        exact ⟨hl.1, hl.2⟩

/-- The stable sort produces a list sorted by the comparator (in the weak sense
"no later element is strictly before an earlier one"). -/
theorem pairwise_sortByB (lt : FileInfo → FileInfo → Bool) (l : List FileInfo)
    (hA : ∀ a b : FileInfo, lt a b = true → lt b a = false)
    (hT : ∀ a b c : FileInfo, a ∈ l → b ∈ l → c ∈ l →
      lt b a = false → lt c b = false → lt c a = false) :
    (sortByB lt l).Pairwise (fun x y => lt y x = false) := by
  induction l with
  | nil => simp [sortByB]
  | cons f rest ih =>
    show (insBy lt f (sortByB lt rest)).Pairwise _
    apply pairwise_insBy lt f (sortByB lt rest) hA
    · intro a b c ha hb hc
      have hm : ∀ x : FileInfo, x ∈ f :: sortByB lt rest → x ∈ f :: rest := by
        intro x hx
        rcases List.mem_cons.1 hx with rfl | hx2
        · exact List.mem_cons_self _ _
        · exact List.mem_cons_of_mem _ ((mem_sortByB lt rest x).1 hx2)
      exact hT a b c (hm a ha) (hm b hb) (hm c hc)
    · exact ih (fun a b c ha hb hc => hT a b c (List.mem_cons_of_mem _ ha)
        (List.mem_cons_of_mem _ hb) (List.mem_cons_of_mem _ hc))

/-! ## Specification lemmas: the insertion-ordered map -/

theorem mapGet_cons (k2 : String) (v2 : FileInfo) (rest : List (String × FileInfo)) (i : String) :
    mapGet ((k2, v2) :: rest) i = if k2 = i then some v2 else mapGet rest i := by
  unfold mapGet
  by_cases h : k2 = i
  · rw [List.find?_cons_of_pos _ (by simp [h]), if_pos h]
    rfl
  · rw [List.find?_cons_of_neg _ (by simp [h]), if_neg h]

theorem mapGet_set (m : List (String × FileInfo)) (k : String) (v : FileInfo) (i : String) :
    mapGet (mapSet m k v) i = if i = k then some v else mapGet m i := by
  induction m with
  | nil =>
    show mapGet [(k, v)] i = _
    rw [mapGet_cons]
    by_cases h : i = k
    · rw [if_pos h.symm, if_pos h]
    · rw [if_neg (fun hh => h hh.symm), if_neg h]
  | cons p rest ih =>
    obtain ⟨k2, v2⟩ := p
    unfold mapSet
    by_cases h2 : k2 = k
    · rw [if_pos h2]
      rw [mapGet_cons, mapGet_cons, h2]
      by_cases h3 : k = i
      · rw [if_pos h3, if_pos h3.symm]
      · rw [if_neg h3, if_neg (fun hh => h3 hh.symm), if_neg h3]
    · rw [if_neg h2]
      rw [mapGet_cons, mapGet_cons, ih]
      by_cases h3 : k2 = i
      · have h4 : ¬(i = k) := fun hik => h2 (h3.trans hik)
        rw [if_pos h3, if_neg h4, if_pos h3]
      · rw [if_neg h3, if_neg h3]

theorem mapHas_eq (m : List (String × FileInfo)) (k : String) :
    mapHas m k = (mapGet m k).isSome := by
  induction m with
  | nil => rfl
  | cons p rest ih =>
    obtain ⟨k2, v2⟩ := p
    show ((k2 == k) || mapHas rest k) = _
    rw [mapGet_cons]
    by_cases h : k2 = k
    · rw [if_pos h]
      simp [h]
    · rw [if_neg h]
      simp [h, ih]

theorem mapSet_keys (m : List (String × FileInfo)) (k : String) (v : FileInfo) :
    (mapSet m k v).map Prod.fst =
      if k ∈ m.map Prod.fst then m.map Prod.fst else m.map Prod.fst ++ [k] := by
  induction m with
  | nil => simp [mapSet]
  | cons p rest ih =>
    obtain ⟨k2, v2⟩ := p
    unfold mapSet
    by_cases h2 : k2 = k
    · rw [if_pos h2]
      subst h2
      simp
    · rw [if_neg h2]
      rw [List.map_cons, List.map_cons, ih]
      by_cases h3 : k ∈ rest.map Prod.fst
      · rw [if_pos h3, if_pos (by simp [h3])]
      · rw [if_neg h3, if_neg (by simp only [List.mem_cons]; push_neg; exact ⟨fun hh => h2 hh.symm, h3⟩)]
        rfl

theorem mapSet_keys_nodup (m : List (String × FileInfo)) (k : String) (v : FileInfo)
    (h : (m.map Prod.fst).Nodup) : ((mapSet m k v).map Prod.fst).Nodup := by
  rw [mapSet_keys]
  by_cases h3 : k ∈ m.map Prod.fst
  · rw [if_pos h3]
    exact h
  · rw [if_neg h3]
    simp [List.nodup_append, h, h3]

theorem mapSet_keys_mem (m : List (String × FileInfo)) (k : String) (v : FileInfo) (i : String) :
    i ∈ (mapSet m k v).map Prod.fst ↔ i ∈ m.map Prod.fst ∨ i = k := by
  rw [mapSet_keys]
  by_cases h3 : k ∈ m.map Prod.fst
  · rw [if_pos h3]
    constructor
    · exact fun h => Or.inl h
    · rintro (h | rfl)
      · exact h
      · exact h3
  · rw [if_neg h3]
    simp

theorem mapSet_mem_sub (m : List (String × FileInfo)) (k : String) (v : FileInfo) :
    ∀ p ∈ mapSet m k v, p = (k, v) ∨ p ∈ m := by
  induction m with
  | nil =>
    intro p hp
    exact Or.inl (List.mem_singleton.1 hp)
  | cons q rest ih =>
    obtain ⟨k2, v2⟩ := q
    unfold mapSet
    by_cases h2 : k2 = k
    · rw [if_pos h2]
      intro p hp
      rcases List.mem_cons.1 hp with rfl | hp2
      · exact Or.inl rfl
      · exact Or.inr (List.mem_cons_of_mem _ hp2)
    · rw [if_neg h2]
      intro p hp
      rcases List.mem_cons.1 hp with rfl | hp2
      · exact Or.inr (List.mem_cons_self _ _)
      · rcases ih p hp2 with h | h
        · exact Or.inl h
        · exact Or.inr (List.mem_cons_of_mem _ h)

theorem mapGet_mem (m : List (String × FileInfo)) (k : String) (v : FileInfo)
    (h : mapGet m k = some v) : (k, v) ∈ m := by
  unfold mapGet at h
  cases hq : m.find? (fun p => p.1 == k) with
  | none => rw [hq] at h; cases h
  | some q =>
    rw [hq] at h
    dsimp only [Option.map] at h
    have h1 : q.1 = k := by have h0 := List.find?_some hq; simpa using h0
    have h2 : q ∈ m := List.mem_of_find?_eq_some hq
    obtain ⟨q1, q2⟩ := q
    have h4 : q2 = v := by injection h
    rw [← h1, ← h4]
    exact h2

theorem mem_mapGet (m : List (String × FileInfo)) (hnd : (m.map Prod.fst).Nodup)
    (k : String) (v : FileInfo) (h : (k, v) ∈ m) : mapGet m k = some v := by
  induction m with
  | nil => cases h
  | cons p rest ih =>
    obtain ⟨k2, v2⟩ := p
    rw [List.map_cons, List.nodup_cons] at hnd
    rw [mapGet_cons]
    rcases List.mem_cons.1 h with heq | hm
    · have h1 : k = k2 := congrArg Prod.fst heq
      have h2 : v = v2 := congrArg Prod.snd heq
      rw [if_pos h1.symm, h2]
    · by_cases h2 : k2 = k
      · exfalso
        apply hnd.1
        rw [h2]
        exact List.mem_map.2 ⟨(k, v), hm, rfl⟩
      · rw [if_neg h2]
        exact ih hnd.2 hm

theorem keys_mem_iff (m : List (String × FileInfo)) (i : String) :
    i ∈ m.map Prod.fst ↔ (mapGet m i).isSome = true := by
  induction m with
  | nil => simp [mapGet]
  | cons p rest ih =>
    obtain ⟨k2, v2⟩ := p
    rw [List.map_cons, mapGet_cons]
    by_cases h : k2 = i
    · simp [h]
    · have h2 : ¬(i = k2) := fun hh => h hh.symm
      simp [h, h2, ih]

/-! ## Specification lemmas: `mergeFileLists` lookup characterization -/

/-- One step of scanning a list for the last record with a given id. -/
def lwStep (i : String) (acc : Option FileInfo) (f : FileInfo) : Option FileInfo :=
  if f.id = i then some f else acc

/-- The last record of `l` whose id is `i` (`Map.set` is last-wins). -/
def lastWithId (l : List FileInfo) (i : String) : Option FileInfo :=
  l.foldl (lwStep i) none

theorem foldl_lwStep (i : String) (A : List FileInfo) : ∀ acc : Option FileInfo,
    A.foldl (lwStep i) acc = match lastWithId A i with
      | some g => some g
      | none => acc := by
  induction A with
  | nil => intro acc; rfl
  | cons f A2 ih =>
    intro acc
    rw [List.foldl_cons, ih (lwStep i acc f)]
    have hr : lastWithId (f :: A2) i = match lastWithId A2 i with
        | some g => some g
        | none => lwStep i none f := by
      show A2.foldl (lwStep i) (lwStep i none f) = _
      exact ih (lwStep i none f)
    rw [hr]
    cases hq : lastWithId A2 i with
    | some g => rfl
    | none =>
      dsimp only
      unfold lwStep
      by_cases hfi : f.id = i
      · rw [if_pos hfi, if_pos hfi]
      · rw [if_neg hfi, if_neg hfi]

theorem lastWithId_cons (f : FileInfo) (A : List FileInfo) (i : String) :
    lastWithId (f :: A) i = match lastWithId A i with
      | some g => some g
      | none => if f.id = i then some f else none := by
  show A.foldl (lwStep i) (lwStep i none f) = _
  rw [foldl_lwStep]
  cases lastWithId A i with
  | some g => rfl
  | none => rfl

theorem lastWithId_mem (A : List FileInfo) (i : String) (g : FileInfo)
    (h : lastWithId A i = some g) : g ∈ A ∧ g.id = i := by
  induction A with
  | nil => cases h
  | cons f A2 ih =>
    rw [lastWithId_cons] at h
    cases hq : lastWithId A2 i with
    | some g2 =>
      rw [hq] at h
      dsimp only at h
      have hg : g2 = g := by injection h
      obtain ⟨h1, h2⟩ := ih (hg ▸ hq)
      exact ⟨List.mem_cons_of_mem _ h1, h2⟩
    | none =>
      rw [hq] at h
      dsimp only at h
      by_cases hfi : f.id = i
      · rw [if_pos hfi] at h
        have hg : f = g := by injection h
        exact ⟨hg ▸ List.mem_cons_self _ _, hg ▸ hfi⟩
      · rw [if_neg hfi] at h
        cases h

theorem lastWithId_none (A : List FileInfo) (i : String) :
    lastWithId A i = none ↔ ∀ a ∈ A, a.id ≠ i := by
  induction A with
  | nil => simp [lastWithId]
  | cons f A2 ih =>
    rw [lastWithId_cons]
    cases hq : lastWithId A2 i with
    | some g =>
      obtain ⟨hg1, hg2⟩ := lastWithId_mem A2 i g hq
      show some g = none ↔ _
      constructor
      · intro h; exact Option.noConfusion h
      · intro h; exact absurd hg2 (h g (List.mem_cons_of_mem _ hg1))
    | none =>
      show (if f.id = i then some f else none) = none ↔ _
      by_cases hfi : f.id = i
      · rw [if_pos hfi]
        constructor
        · intro h; exact Option.noConfusion h
        · intro h; exact absurd hfi (h f (List.mem_cons_self _ _))
      · rw [if_neg hfi]
        constructor
        · intro _ a ha
          rcases List.mem_cons.1 ha with rfl | ha2
          · exact hfi
          · exact (ih.1 hq) a ha2
        · intro _; rfl

theorem lastWithId_of_nodup (A : List FileInfo) (i : String) (a : FileInfo)
    (ha : a ∈ A) (hai : a.id = i) (hnd : (A.map FileInfo.id).Nodup) :
    lastWithId A i = some a := by
  induction A with
  | nil => cases ha
  | cons f A2 ih =>
    rw [List.map_cons, List.nodup_cons] at hnd
    rw [lastWithId_cons]
    rcases List.mem_cons.1 ha with rfl | haA
    · have hh : ∀ x ∈ A2, x.id ≠ i := by
        intro x hx hxi
        exact hnd.1 (by rw [hai, ← hxi]; exact List.mem_map.2 ⟨x, hx, rfl⟩)
      rw [(lastWithId_none A2 i).2 hh]
      dsimp only
      rw [if_pos hai]
    · rw [ih haA hnd.2]

/-- One step of the per-id accumulator describing phase two of the merge. -/
def accStep (i : String) (o : Option FileInfo) (b : FileInfo) : Option FileInfo :=
  if b.id = i then
    some (match o with
      | none => b
      | some e => if gtJS (jsGetTime b.uploadTime) (jsGetTime e.uploadTime) then b else e)
  else o

/-- The record stored at id `i` after folding the cloud list over an initial
entry `o`. -/
def mergeAcc (i : String) (o : Option FileInfo) (B : List FileInfo) : Option FileInfo :=
  B.foldl (accStep i) o

theorem mergeAcc_cons (i : String) (o : Option FileInfo) (b : FileInfo) (B : List FileInfo) :
    mergeAcc i o (b :: B) = mergeAcc i (accStep i o b) B := rfl

theorem mapGet_mergeStep (m1 : List (String × FileInfo)) (b : FileInfo) (i : String) :
    mapGet (mergeStep m1 b) i = accStep i (mapGet m1 i) b := by
  unfold mergeStep accStep
  by_cases hh : mapHas m1 b.id = false
  · rw [if_pos hh]
    have hnone : mapGet m1 b.id = none := by
      rw [mapHas_eq] at hh
      cases hx : mapGet m1 b.id with
      | none => rfl
      | some e => rw [hx] at hh; simp at hh
    rw [mapGet_set]
    by_cases hi : b.id = i
    · rw [if_pos hi, if_pos hi.symm, ← hi, hnone]
    · rw [if_neg hi, if_neg (fun hch => hi hch.symm)]
  · rw [if_neg hh]
    have hsome : ∃ e, mapGet m1 b.id = some e := by
      rw [mapHas_eq] at hh
      cases hx : mapGet m1 b.id with
      | none => rw [hx] at hh; simp at hh
      | some e => exact ⟨e, rfl⟩
    obtain ⟨e, he⟩ := hsome
    rw [he]
    dsimp only
    by_cases hg : gtJS (jsGetTime b.uploadTime) (jsGetTime e.uploadTime) = true
    · rw [if_pos hg, mapGet_set]
      by_cases hi : b.id = i
      · rw [if_pos hi, if_pos hi.symm, ← hi, he]
        dsimp only
        rw [if_pos hg]
      · rw [if_neg hi, if_neg (fun hch => hi hch.symm)]
    · rw [if_neg hg]
      by_cases hi : b.id = i
      · rw [if_pos hi, ← hi, he]
        dsimp only
        rw [if_neg hg]
      · rw [if_neg hi]

theorem mergedMap_get_aux (B : List FileInfo) : ∀ (m1 : List (String × FileInfo)) (i : String),
    mapGet (B.foldl mergeStep m1) i = mergeAcc i (mapGet m1 i) B := by
  induction B with
  | nil => intro m1 i; rfl
  | cons b B2 ih =>
    intro m1 i
    rw [List.foldl_cons, ih (mergeStep m1 b) i, mergeAcc_cons, mapGet_mergeStep]

theorem locMap_get (A : List FileInfo) (i : String) :
    mapGet (locMap A) i = lastWithId A i := by
  have haux : ∀ (A2 : List FileInfo) (m0 : List (String × FileInfo)),
      mapGet (A2.foldl (fun m f => mapSet m f.id f) m0) i = match lastWithId A2 i with
        | some g => some g
        | none => mapGet m0 i := by
    intro A2
    induction A2 with
    | nil => intro m0; rfl
    | cons f A3 ih =>
      intro m0
      rw [List.foldl_cons, ih (mapSet m0 f.id f), lastWithId_cons]
      cases hq : lastWithId A3 i with
      | some g => rfl
      | none =>
        dsimp only
        rw [mapGet_set]
        by_cases hfi : f.id = i
        · rw [if_pos hfi, if_pos hfi.symm]
        · rw [if_neg hfi, if_neg (fun hch => hfi hch.symm)]
    
  rw [show locMap A = A.foldl (fun m f => mapSet m f.id f) [] from rfl, haux A []]
  cases lastWithId A i with
  | some g => rfl
  | none => rfl

theorem mergedMap_get (A B : List FileInfo) (i : String) :
    mapGet (mergedMap A B) i = mergeAcc i (lastWithId A i) B := by
  unfold mergedMap
  rw [mergedMap_get_aux, locMap_get]

theorem mergeAcc_skip (i : String) (B : List FileInfo) :
    ∀ o : Option FileInfo, (∀ b ∈ B, b.id ≠ i) → mergeAcc i o B = o := by
  induction B with
  | nil => intro o _; rfl
  | cons c B2 ih =>
    intro o h
    rw [mergeAcc_cons]
    have hc : accStep i o c = o := by
      unfold accStep
      rw [if_neg (h c (List.mem_cons_self _ _))]
    rw [hc]
    exact ih o (fun b hb => h b (List.mem_cons_of_mem _ hb))

theorem mergeAcc_unique (i : String) (B : List FileInfo) (b : FileInfo)
    (hb : b ∈ B) (hbid : b.id = i) (hnd : (B.map FileInfo.id).Nodup) :
    ∀ o : Option FileInfo, mergeAcc i o B = some (match o with
      | none => b
      | some e => if gtJS (jsGetTime b.uploadTime) (jsGetTime e.uploadTime) then b else e) := by
  induction B with
  | nil => cases hb
  | cons c B2 ih =>
    intro o
    rw [List.map_cons, List.nodup_cons] at hnd
    rw [mergeAcc_cons]
    rcases List.mem_cons.1 hb with rfl | hbB
    · have hskip : ∀ x ∈ B2, x.id ≠ i := by
        intro x hx hxi
        exact hnd.1 (by rw [hbid, ← hxi]; exact List.mem_map.2 ⟨x, hx, rfl⟩)
      rw [mergeAcc_skip i B2 (accStep i o b) hskip]
      unfold accStep
      rw [if_pos hbid]
    · have hci : ¬(c.id = i) := by
        intro hc
        exact hnd.1 (by rw [hc, ← hbid]; exact List.mem_map.2 ⟨b, hbB, rfl⟩)
      have hc : accStep i o c = o := by
        unfold accStep
        rw [if_neg hci]
      rw [hc]
      exact ih hbB hnd.2 o

theorem mergeAcc_none (i : String) (B : List FileInfo) : ∀ o : Option FileInfo,
    mergeAcc i o B = none ↔ o = none ∧ ∀ b ∈ B, b.id ≠ i := by
  induction B with
  | nil => intro o; simp [mergeAcc]
  | cons c B2 ih =>
    intro o
    rw [mergeAcc_cons, ih (accStep i o c)]
    unfold accStep
    by_cases hci : c.id = i
    · rw [if_pos hci]
      simp only [List.mem_cons]
      constructor
      · intro h; cases h.1
      · intro h
        exact absurd hci (h.2 c (Or.inl rfl))
    · rw [if_neg hci]
      simp only [List.mem_cons]
      constructor
      · intro h
        refine ⟨h.1, ?_⟩
        intro b hb
        rcases hb with rfl | hb2
        · exact hci
        · exact h.2 b hb2
      · intro h
        exact ⟨h.1, fun b hb => h.2 b (Or.inr hb)⟩

/-! ## Invariants of the merged map -/

theorem locMap_inv (A : List FileInfo) :
    ∀ p ∈ locMap A, p.1 = p.2.id ∧ p.2 ∈ A := by
  have haux : ∀ (A2 : List FileInfo) (m0 : List (String × FileInfo)),
      (∀ p ∈ m0, p.1 = p.2.id ∧ p.2 ∈ A) → (∀ f ∈ A2, f ∈ A) →
      ∀ p ∈ A2.foldl (fun m f => mapSet m f.id f) m0, p.1 = p.2.id ∧ p.2 ∈ A := by
    intro A2
    induction A2 with
    | nil => intro m0 hm0 _ p hp; exact hm0 p hp
    | cons f A3 ih =>
      intro m0 hm0 hsub p hp
      refine ih (mapSet m0 f.id f) ?_ (fun g hg => hsub g (List.mem_cons_of_mem _ hg)) p hp
      intro q hq
      rcases mapSet_mem_sub m0 f.id f q hq with rfl | hq2
      · exact ⟨rfl, hsub f (List.mem_cons_self _ _)⟩
      · exact hm0 q hq2
  exact haux A [] (fun p hp => absurd hp (List.not_mem_nil p)) (fun f hf => hf)

theorem mergeStep_mem_sub (m : List (String × FileInfo)) (b : FileInfo) :
    ∀ p ∈ mergeStep m b, p = (b.id, b) ∨ p ∈ m := by
  unfold mergeStep
  by_cases hh : mapHas m b.id = false
  · rw [if_pos hh]
    exact mapSet_mem_sub m b.id b
  · rw [if_neg hh]
    cases hq : mapGet m b.id with
    | none => exact fun p hp => Or.inr hp
    | some e =>
      dsimp only
      by_cases hg : gtJS (jsGetTime b.uploadTime) (jsGetTime e.uploadTime) = true
      · rw [if_pos hg]
        exact mapSet_mem_sub m b.id b
      · rw [if_neg hg]
        exact fun p hp => Or.inr hp

theorem mergedMap_inv (A B : List FileInfo) :
    ∀ p ∈ mergedMap A B, p.1 = p.2.id ∧ (p.2 ∈ A ∨ p.2 ∈ B) := by
  have haux : ∀ (B2 : List FileInfo) (m1 : List (String × FileInfo)),
      (∀ p ∈ m1, p.1 = p.2.id ∧ (p.2 ∈ A ∨ p.2 ∈ B)) → (∀ f ∈ B2, f ∈ B) →
      ∀ p ∈ B2.foldl mergeStep m1, p.1 = p.2.id ∧ (p.2 ∈ A ∨ p.2 ∈ B) := by
    intro B2
    induction B2 with
    | nil => intro m1 hm1 _ p hp; exact hm1 p hp
    | cons b B3 ih =>
      intro m1 hm1 hsub p hp
      refine ih (mergeStep m1 b) ?_ (fun g hg => hsub g (List.mem_cons_of_mem _ hg)) p hp
      intro q hq
      rcases mergeStep_mem_sub m1 b q hq with rfl | hq2
      · exact ⟨rfl, Or.inr (hsub b (List.mem_cons_self _ _))⟩
      · exact hm1 q hq2
  refine haux B (locMap A) ?_ (fun f hf => hf)
  intro p hp
  obtain ⟨h1, h2⟩ := locMap_inv A p hp
  exact ⟨h1, Or.inl h2⟩

theorem mergeStep_keys_nodup (m : List (String × FileInfo)) (b : FileInfo)
    (h : (m.map Prod.fst).Nodup) : ((mergeStep m b).map Prod.fst).Nodup := by
  unfold mergeStep
  by_cases hh : mapHas m b.id = false
  · rw [if_pos hh]
    exact mapSet_keys_nodup m b.id b h
  · rw [if_neg hh]
    cases hq : mapGet m b.id with
    | none => exact h
    | some e =>
      dsimp only
      by_cases hg : gtJS (jsGetTime b.uploadTime) (jsGetTime e.uploadTime) = true
      · rw [if_pos hg]
        exact mapSet_keys_nodup m b.id b h
      · rw [if_neg hg]
        exact h

theorem locMap_keys_nodup (A : List FileInfo) : ((locMap A).map Prod.fst).Nodup := by
  have haux : ∀ (A2 : List FileInfo) (m0 : List (String × FileInfo)),
      (m0.map Prod.fst).Nodup →
      ((A2.foldl (fun m f => mapSet m f.id f) m0).map Prod.fst).Nodup := by
    intro A2
    induction A2 with
    | nil => intro m0 h; exact h
    | cons f A3 ih => intro m0 h; exact ih (mapSet m0 f.id f) (mapSet_keys_nodup m0 f.id f h)
  exact haux A [] List.nodup_nil

theorem mergedMap_keys_nodup (A B : List FileInfo) :
    ((mergedMap A B).map Prod.fst).Nodup := by
  have haux : ∀ (B2 : List FileInfo) (m1 : List (String × FileInfo)),
      (m1.map Prod.fst).Nodup → ((B2.foldl mergeStep m1).map Prod.fst).Nodup := by
    intro B2
    induction B2 with
    | nil => intro m1 h; exact h
    | cons b B3 ih => intro m1 h; exact ih (mergeStep m1 b) (mergeStep_keys_nodup m1 b h)
  exact haux B (locMap A) (locMap_keys_nodup A)

/-! ## Specification lemmas: the expiry sweep -/

theorem sweepStep_eq (now : Nat) (r : SweepResult) (f0 : FileInfo) :
    sweepStep now r f0 =
      if isExpiredJS now (backfill now f0) then
        { r with deletions := r.deletions ++ [((backfill now f0).publicId, (backfill now f0).fileType)],
                 hasExpired := true }
      else { r with valid := r.valid ++ [backfill now f0] } := rfl

theorem sweep_aux (now : Nat) (files : List FileInfo) : ∀ r : SweepResult,
    files.foldl (sweepStep now) r =
      ⟨r.valid ++ ((files.map (backfill now)).filter (fun f => !isExpiredJS now f)),
       r.deletions ++ (((files.map (backfill now)).filter (isExpiredJS now)).map
         (fun f => (f.publicId, f.fileType))),
       r.hasExpired || (files.map (backfill now)).any (isExpiredJS now)⟩ := by
  induction files with
  | nil => intro r; simp
  | cons f0 fs ih =>
    intro r
    rw [List.foldl_cons, ih (sweepStep now r f0), sweepStep_eq]
    by_cases he : isExpiredJS now (backfill now f0) = true
    · rw [if_pos he]
      simp [List.filter_cons, he, List.append_assoc]
    · rw [if_neg he]
      have he2 : isExpiredJS now (backfill now f0) = false := by
        cases hx : isExpiredJS now (backfill now f0)
        · rfl
        · exact absurd hx he
      simp [List.filter_cons, he2, List.append_assoc]

/-- Closed form of `cleanupExpiredFilesSync`: survivors are the non-expired
back-filled records in order, one deletion attempt per expired record in
order, and the write-back trigger is "some record expired". -/
theorem cleanup_eq (now : Nat) (files : List FileInfo) :
    cleanupExpiredFilesSync now files =
      ⟨(files.map (backfill now)).filter (fun f => !isExpiredJS now f),
       ((files.map (backfill now)).filter (isExpiredJS now)).map
         (fun f => (f.publicId, f.fileType)),
       (files.map (backfill now)).any (isExpiredJS now)⟩ := by
  unfold cleanupExpiredFilesSync
  rw [sweep_aux]
  simp

theorem backfill_id (now : Nat) (f : FileInfo) (h : f.expiresAt ≠ "") :
    backfill now f = f := by
  unfold backfill
  rw [if_neg h]

/-! ## Specification lemmas: the batch delete -/

theorem chunks5_flatten {α : Type} (l : List α) : (chunks5 l).flatten = l := by
  cases l with
  | nil => simp [chunks5]
  | cons x xs =>
    rw [chunks5, List.flatten_cons, chunks5_flatten ((x :: xs).drop 5),
      List.take_append_drop]
  termination_by l.length
  decreasing_by
    simp [List.length_drop]
    omega

theorem chunks5_short {α : Type} (l : List α) : ∀ c ∈ chunks5 l, c.length ≤ 5 := by
  cases l with
  | nil => intro c hc; simp [chunks5] at hc
  | cons x xs =>
    intro c hc
    rw [chunks5] at hc
    rcases List.mem_cons.1 hc with rfl | hc2
    · simp [List.length_take]
    · exact chunks5_short ((x :: xs).drop 5) c hc2
  termination_by l.length
  decreasing_by
    simp [List.length_drop]
    omega

theorem foldl_chunk_fold {α β : Type} (f : β → α → β) (L : List (List α)) : ∀ b : β,
    L.foldl (fun r c => c.foldl f r) b = L.flatten.foldl f b := by
  induction L with
  | nil => intro b; rfl
  | cons c L2 ih =>
    intro b
    rw [List.foldl_cons, ih (c.foldl f b), List.flatten_cons, List.foldl_append]

theorem batchDeleteWith_eq (outcome : DelItem → Except String Unit) (files : List DelItem) :
    batchDeleteWith outcome files = files.foldl (runItem outcome) ⟨0, 0, []⟩ := by
  unfold batchDeleteWith
  rw [foldl_chunk_fold, chunks5_flatten]

/-- Whether a per-item outcome counts as a success. -/
def isOkB : Except String Unit → Bool
  | Except.ok _ => true
  | Except.error _ => false

/-- The message of a failed outcome (dummy for successes). -/
def errMsgOf : Except String Unit → String
  | Except.ok _ => ""
  | Except.error m => m

theorem runItem_fold (outcome : DelItem → Except String Unit) (l : List DelItem) :
    ∀ r : BatchResult, l.foldl (runItem outcome) r =
      ⟨r.successCount + (l.filter (fun f => isOkB (outcome f))).length,
       r.failedCount + (l.filter (fun f => !isOkB (outcome f))).length,
       r.errors ++ ((l.filter (fun f => !isOkB (outcome f))).map
         (fun f => f.publicId ++ ": " ++ errMsgOf (outcome f)))⟩ := by
  induction l with
  | nil => intro r; simp
  | cons f fs ih =>
    intro r
    rw [List.foldl_cons, ih (runItem outcome r f)]
    unfold runItem
    cases ho : outcome f with
    | ok u =>
      have h1 : isOkB (outcome f) = true := by rw [ho]; rfl
      simp [List.filter_cons, h1, BatchResult.mk.injEq]
      omega
    | error m =>
      have h1 : isOkB (outcome f) = false := by rw [ho]; rfl
      have h2 : errMsgOf (outcome f) = m := by rw [ho]; rfl
      simp [List.filter_cons, h1, h2, BatchResult.mk.injEq, List.append_assoc]
      omega

/-! ## Specification lemmas: the substring search -/

theorem isPrefixB_iff (n : List Char) : ∀ h : List Char,
    isPrefixB n h = true ↔ ∃ r, h = n ++ r := by
  induction n with
  | nil => intro h; simp [isPrefixB]
  | cons a as ih =>
    intro h
    cases h with
    | nil =>
      simp [isPrefixB]
    | cons b bs =>
      show (a == b && isPrefixB as bs) = true ↔ _
      rw [Bool.and_eq_true, beq_iff_eq, ih bs]
      constructor
      · rintro ⟨rfl, r, rfl⟩
        exact ⟨r, rfl⟩
      · rintro ⟨r, hr⟩
        injection hr with hr1 hr2
        exact ⟨hr1.symm, r, hr2⟩

theorem includesB_iff (n : List Char) (h : List Char) :
    includesB n h = true ↔ ∃ l r, h = l ++ n ++ r := by
  induction h with
  | nil =>
    show isPrefixB n [] = true ↔ _
    rw [isPrefixB_iff]
    constructor
    · rintro ⟨r, hr⟩
      exact ⟨[], r, hr⟩
    · rintro ⟨l, r, hr⟩
      cases l with
      | nil => exact ⟨r, hr⟩
      | cons x xs => exact List.noConfusion hr
  | cons c hs ih =>
    show (isPrefixB n (c :: hs) || includesB n hs) = true ↔ _
    rw [Bool.or_eq_true, isPrefixB_iff, ih]
    constructor
    · rintro (⟨r, hr⟩ | ⟨l, r, hr⟩)
      · exact ⟨[], r, hr⟩
      · refine ⟨c :: l, r, ?_⟩
        rw [List.cons_append, List.cons_append, ← hr]
    · rintro ⟨l, r, hr⟩
      cases l with
      | nil => exact Or.inl ⟨r, hr⟩
      | cons x xs =>
        injection hr with hr1 hr2
        exact Or.inr ⟨xs, r, hr2⟩

/-! ## Specification lemmas: the share-link serialization -/

theorem jlToList_ofList (l : List Json) : jlToList (jlOfList l) = l := by
  induction l with
  | nil => rfl
  | cons x xs ih =>
    show x :: jlToList (jlOfList xs) = x :: xs
    rw [ih]

theorem validEntry_share (f : FileInfo) : validEntryB (shareFileJson f) = true := rfl

theorem shareEntry_rt (now2 : Nat) (f : FileInfo) (h1 : f.uploadTime ≠ "")
    (h2 : f.expiresAt ≠ "") (h3 : f.fileType ≠ "") :
    shareEntryToFileInfo now2 (shareFileJson f) = f := by
  show ({ id := f.id
          fileName := f.fileName
          uploadTime := if f.uploadTime = "" then toISOString now2 else f.uploadTime
          expiresAt := if f.expiresAt = "" then toISOString (now2 + 24 * 60 * 60 * 1000)
            else f.expiresAt
          fileSize := if Int.ofNat f.fileSize = 0 then 0 else (Int.ofNat f.fileSize).toNat
          cloudinaryUrl := f.cloudinaryUrl
          fileType := if f.fileType = "" then "application/octet-stream" else f.fileType
          publicId := if f.publicId = "" then "" else f.publicId } : FileInfo) = f
  rw [if_neg h1, if_neg h2, if_neg h3]
  have hsize : (if Int.ofNat f.fileSize = 0 then 0 else (Int.ofNat f.fileSize).toNat)
      = f.fileSize := by
    by_cases hz : Int.ofNat f.fileSize = 0
    · rw [if_pos hz]
      exact (Int.ofNat_eq_zero.mp hz).symm
    · rw [if_neg hz]
      rfl
  have hpub : (if f.publicId = "" then "" else f.publicId) = f.publicId := by
    by_cases hp : f.publicId = ""
    · rw [if_pos hp, hp]
    · rw [if_neg hp]
  rw [hsize, hpub]

theorem map_shareEntry_rt (now2 : Nat) (files : List FileInfo)
    (hf : ∀ f ∈ files, f.uploadTime ≠ "" ∧ f.expiresAt ≠ "" ∧ f.fileType ≠ "") :
    ((files.map shareFileJson).filter validEntryB).map (shareEntryToFileInfo now2) = files := by
  rw [List.filter_eq_self.mpr (by
    intro j hj
    obtain ⟨f, hfm, rfl⟩ := List.mem_map.1 hj
    exact validEntry_share f)]
  rw [List.map_map]
  rw [show files.map (shareEntryToFileInfo now2 ∘ shareFileJson) = files.map id from
    List.map_congr_left (fun f hfm => by
      obtain ⟨hx1, hx2, hx3⟩ := hf f hfm
      exact shareEntry_rt now2 f hx1 hx2 hx3)]
  exact List.map_id files

/-! ## Bridging lemmas for the merge claims -/

theorem mergedMap_values_mem (A B : List FileInfo) (v : FileInfo) :
    v ∈ (mergedMap A B).map (fun p => p.2) ↔ mapGet (mergedMap A B) v.id = some v := by
  constructor
  · intro hv
    obtain ⟨p, hp, rfl⟩ := List.mem_map.1 hv
    have hinv := (mergedMap_inv A B p hp).1
    have hmg := mem_mapGet (mergedMap A B) (mergedMap_keys_nodup A B) p.1 p.2 hp
    rw [hinv] at hmg
    exact hmg
  · intro hg
    exact List.mem_map.2 ⟨(v.id, v), mapGet_mem _ _ _ hg, rfl⟩

theorem mergeFileLists_mem (A B : List FileInfo) (v : FileInfo) :
    v ∈ mergeFileLists A B ↔ mapGet (mergedMap A B) v.id = some v := by
  unfold mergeFileLists
  rw [mem_sortByB]
  exact mergedMap_values_mem A B v

theorem merge_values_ids (A B : List FileInfo) :
    ((mergedMap A B).map (fun p => p.2)).map FileInfo.id = (mergedMap A B).map Prod.fst := by
  rw [List.map_map]
  exact List.map_congr_left (fun p hp => ((mergedMap_inv A B p hp).1).symm)

theorem merge_ids_nodup (A B : List FileInfo) :
    ((mergeFileLists A B).map FileInfo.id).Nodup := by
  have hperm : ((mergeFileLists A B).map FileInfo.id).Perm
      (((mergedMap A B).map (fun p => p.2)).map FileInfo.id) := by
    unfold mergeFileLists
    exact (perm_sortByB beforeTimeDesc ((mergedMap A B).map (fun p => p.2))).map FileInfo.id
  rw [merge_values_ids] at hperm
  exact hperm.nodup_iff.2 (mergedMap_keys_nodup A B)

theorem merge_ids_mem (A B : List FileInfo) (i : String) :
    i ∈ (mergeFileLists A B).map FileInfo.id ↔
      i ∈ A.map FileInfo.id ∨ i ∈ B.map FileInfo.id := by
  have hperm : ((mergeFileLists A B).map FileInfo.id).Perm
      (((mergedMap A B).map (fun p => p.2)).map FileInfo.id) := by
    unfold mergeFileLists
    exact (perm_sortByB beforeTimeDesc ((mergedMap A B).map (fun p => p.2))).map FileInfo.id
  rw [hperm.mem_iff, merge_values_ids, keys_mem_iff, mergedMap_get]
  constructor
  · intro h
    by_contra hno
    push_neg at hno
    have hA0 : lastWithId A i = none := (lastWithId_none A i).2
      (fun a ha hai => hno.1 (List.mem_map.2 ⟨a, ha, hai⟩))
    have hB0 : mergeAcc i (lastWithId A i) B = none := ((mergeAcc_none i B) (lastWithId A i)).2
      ⟨hA0, fun b hb hbi => hno.2 (List.mem_map.2 ⟨b, hb, hbi⟩)⟩
    rw [hB0] at h
    simp at h
  · intro h
    cases hq : mergeAcc i (lastWithId A i) B with
    | some v => simp
    | none =>
      have hq2 := ((mergeAcc_none i B) (lastWithId A i)).1 hq
      rcases h with ha | hb
      · obtain ⟨a, haA, hai⟩ := List.mem_map.1 ha
        exact absurd hai ((lastWithId_none A i).1 hq2.1 a haA)
      · obtain ⟨b, hbB, hbi⟩ := List.mem_map.1 hb
        exact absurd hbi (hq2.2 b hbB)

theorem merge_winner (A B : List FileInfo) (hA : (A.map FileInfo.id).Nodup)
    (hB : (B.map FileInfo.id).Nodup) (a b : FileInfo) (haA : a ∈ A) (hbB : b ∈ B)
    (hid : a.id = b.id) (ta tb : Nat) (hta : jsGetTime a.uploadTime = some ta)
    (htb : jsGetTime b.uploadTime = some tb) :
    mapGet (mergedMap A B) a.id = some (if ta < tb then b else a) := by
  rw [mergedMap_get, lastWithId_of_nodup A a.id a haA rfl hA,
    mergeAcc_unique a.id B b hbB hid.symm hB (some a)]
  dsimp only
  rw [hta, htb]
  simp only [gtJS, decide_eq_true_eq]

theorem merge_out_sub (A B : List FileInfo) :
    ∀ v ∈ mergeFileLists A B, v ∈ A ++ B := by
  intro v hv
  unfold mergeFileLists at hv
  rw [mem_sortByB] at hv
  obtain ⟨p, hp, rfl⟩ := List.mem_map.1 hv
  rcases (mergedMap_inv A B p hp).2 with h | h
  · exact List.mem_append.2 (Or.inl h)
  · exact List.mem_append.2 (Or.inr h)

theorem beforeTimeDesc_asym (a b : FileInfo) (h : beforeTimeDesc a b = true) :
    beforeTimeDesc b a = false := by
  unfold beforeTimeDesc at h ⊢
  cases ha : jsGetTime a.uploadTime with
  | none => rw [ha] at h; simp [gtJS] at h
  | some x =>
    cases hb : jsGetTime b.uploadTime with
    | none => simp [gtJS]
    | some y =>
      rw [ha, hb] at h
      simp [gtJS] at h ⊢
      omega

theorem merge_weak_sorted (A B : List FileInfo)
    (hparse : ∀ f ∈ A ++ B, (jsGetTime f.uploadTime).isSome = true) :
    (mergeFileLists A B).Pairwise (fun x y => beforeTimeDesc y x = false) := by
  have hvals : ∀ v ∈ (mergedMap A B).map (fun p => p.2), v ∈ A ++ B := by
    intro v hv
    obtain ⟨p, hp, rfl⟩ := List.mem_map.1 hv
    rcases (mergedMap_inv A B p hp).2 with h | h
    · exact List.mem_append.2 (Or.inl h)
    · exact List.mem_append.2 (Or.inr h)
  show (sortByB beforeTimeDesc ((mergedMap A B).map (fun p => p.2))).Pairwise _
  apply pairwise_sortByB beforeTimeDesc _ beforeTimeDesc_asym
  intro a b c hav hbv hcv h1 h2
  obtain ⟨ta, hta⟩ := Option.isSome_iff_exists.1 (hparse a (hvals a hav))
  obtain ⟨tb, htb⟩ := Option.isSome_iff_exists.1 (hparse b (hvals b hbv))
  obtain ⟨tc, htc⟩ := Option.isSome_iff_exists.1 (hparse c (hvals c hcv))
  unfold beforeTimeDesc at h1 h2 ⊢
  rw [hta, htb] at h1
  rw [htb, htc] at h2
  rw [hta, htc]
  simp [gtJS] at h1 h2 ⊢
  omega

theorem merge_sorted (A B : List FileInfo)
    (hparse : ∀ f ∈ A ++ B, (jsGetTime f.uploadTime).isSome = true) :
    (mergeFileLists A B).Pairwise (fun x y => ∀ tx ty : Nat,
      jsGetTime x.uploadTime = some tx → jsGetTime y.uploadTime = some ty → ty ≤ tx) := by
  refine (merge_weak_sorted A B hparse).imp ?_
  intro x y hxy tx ty htx hty
  unfold beforeTimeDesc at hxy
  rw [hty, htx] at hxy
  simp [gtJS] at hxy
  omega

theorem merge_out_nodup (A B : List FileInfo) : (mergeFileLists A B).Nodup :=
  List.Nodup.of_map FileInfo.id (merge_ids_nodup A B)

theorem merge_strict_sorted (A B : List FileInfo)
    (hparse : ∀ f ∈ A ++ B, (jsGetTime f.uploadTime).isSome = true)
    (hties : ∀ f ∈ A ++ B, ∀ g ∈ A ++ B,
      jsGetTime f.uploadTime = jsGetTime g.uploadTime → f = g) :
    (mergeFileLists A B).Pairwise (fun x y => beforeTimeDesc x y = true) := by
  have hco := pairwise_and_of (mergeFileLists A B) (merge_weak_sorted A B hparse)
    (merge_out_nodup A B)
  refine pairwise_imp_mem (mergeFileLists A B) ?_ hco
  intro x y hx hy hxy
  obtain ⟨hyx, hne⟩ := hxy
  have hxm := merge_out_sub A B x hx
  have hym := merge_out_sub A B y hy
  obtain ⟨tx, htx⟩ := Option.isSome_iff_exists.1 (hparse x hxm)
  obtain ⟨ty, hty⟩ := Option.isSome_iff_exists.1 (hparse y hym)
  have htne : ¬(tx = ty) := by
    intro hteq
    exact hne (hties x hxm y hym (by rw [htx, hty, hteq]))
  unfold beforeTimeDesc at hyx ⊢
  rw [hty, htx] at hyx
  rw [htx, hty]
  simp [gtJS] at hyx ⊢
  omega

theorem merge_comm_get (A B : List FileInfo) (hA : (A.map FileInfo.id).Nodup)
    (hB : (B.map FileInfo.id).Nodup)
    (hparse : ∀ f ∈ A ++ B, (jsGetTime f.uploadTime).isSome = true)
    (hties : ∀ f ∈ A ++ B, ∀ g ∈ A ++ B,
      jsGetTime f.uploadTime = jsGetTime g.uploadTime → f = g) (i : String) :
    mapGet (mergedMap A B) i = mapGet (mergedMap B A) i := by
  rw [mergedMap_get, mergedMap_get]
  by_cases hAi : ∃ a ∈ A, a.id = i
  · obtain ⟨a, haA, hai⟩ := hAi
    by_cases hBi : ∃ b ∈ B, b.id = i
    · obtain ⟨b, hbB, hbi⟩ := hBi
      rw [lastWithId_of_nodup A i a haA hai hA, lastWithId_of_nodup B i b hbB hbi hB,
        mergeAcc_unique i B b hbB hbi hB (some a), mergeAcc_unique i A a haA hai hA (some b)]
      dsimp only
      have ham : a ∈ A ++ B := List.mem_append.2 (Or.inl haA)
      have hbm : b ∈ A ++ B := List.mem_append.2 (Or.inr hbB)
      obtain ⟨ta, hta⟩ := Option.isSome_iff_exists.1 (hparse a ham)
      obtain ⟨tb, htb⟩ := Option.isSome_iff_exists.1 (hparse b hbm)
      by_cases htab : ta = tb
      · have hab : a = b := hties a ham b hbm (by rw [hta, htb, htab])
        subst hab
        rfl
      · rw [hta, htb]
        simp only [gtJS, decide_eq_true_eq]
        by_cases hlt : ta < tb
        · rw [if_pos hlt, if_neg (by omega)]
        · rw [if_neg hlt, if_pos (by omega)]
    · push_neg at hBi
      rw [lastWithId_of_nodup A i a haA hai hA,
        (lastWithId_none B i).2 (fun b hb => hBi b hb),
        mergeAcc_skip i B (some a) (fun b hb => hBi b hb),
        mergeAcc_unique i A a haA hai hA none]
  · push_neg at hAi
    by_cases hBi : ∃ b ∈ B, b.id = i
    · obtain ⟨b, hbB, hbi⟩ := hBi
      rw [(lastWithId_none A i).2 (fun a ha => hAi a ha),
        lastWithId_of_nodup B i b hbB hbi hB,
        mergeAcc_unique i B b hbB hbi hB none,
        mergeAcc_skip i A (some b) (fun a ha => hAi a ha)]
    · push_neg at hBi
      rw [(lastWithId_none A i).2 (fun a ha => hAi a ha),
        (lastWithId_none B i).2 (fun b hb => hBi b hb),
        mergeAcc_skip i B none (fun b hb => hBi b hb),
        mergeAcc_skip i A none (fun a ha => hAi a ha)]

theorem mergedMap_pairs_perm (A B : List FileInfo) (hA : (A.map FileInfo.id).Nodup)
    (hB : (B.map FileInfo.id).Nodup)
    (hparse : ∀ f ∈ A ++ B, (jsGetTime f.uploadTime).isSome = true)
    (hties : ∀ f ∈ A ++ B, ∀ g ∈ A ++ B,
      jsGetTime f.uploadTime = jsGetTime g.uploadTime → f = g) :
    (mergedMap A B).Perm (mergedMap B A) := by
  refine (List.perm_ext_iff_of_nodup
    (List.Nodup.of_map Prod.fst (mergedMap_keys_nodup A B))
    (List.Nodup.of_map Prod.fst (mergedMap_keys_nodup B A))).2 ?_
  intro p
  constructor
  · intro hp
    have h1 := mem_mapGet (mergedMap A B) (mergedMap_keys_nodup A B) p.1 p.2 hp
    rw [merge_comm_get A B hA hB hparse hties p.1] at h1
    exact mapGet_mem _ _ _ h1
  · intro hp
    have h1 := mem_mapGet (mergedMap B A) (mergedMap_keys_nodup B A) p.1 p.2 hp
    rw [← merge_comm_get A B hA hB hparse hties p.1] at h1
    exact mapGet_mem _ _ _ h1

/-! ## The claims -/

/-- Claim C7: for every publicId and fileType, `deleteFileFromCloudinary` in the
deployed credential-less configuration always resolves successfully and
contacts no network endpoint, so a successful return does not imply remote
removal. -/
theorem deleteFile_noop : ∀ (publicId : String) (fileType : Option String),
    deleteFileFromCloudinary publicId fileType = (Except.ok (), []) :=
  fun _ _ => rfl

/-- A record with every required string field present whose fileName contains
a character outside Latin-1. -/
def c10rec : FileInfo :=
  { id := "a", fileName := "中文.pdf", uploadTime := "1970-01-01T00:00:00.000Z",
    expiresAt := "1970-01-02T00:00:00.000Z", fileSize := 5,
    cloudinaryUrl := "u", fileType := "application/pdf", publicId := "p" }

/-- Claim C10: share-link generation is not total over valid records: for the
record `c10rec` (all required string fields present, fileName containing the
Chinese character 中, which is outside Latin-1) `generateShareLink` throws,
because `btoa` rejects the JSON-serialized payload. -/
theorem generateShareLink_nonLatin1_throws :
    generateShareLink 0 "https://example.org/" [c10rec] = Except.error ()
    ∧ c10rec.id ≠ "" ∧ c10rec.fileName ≠ "" ∧ c10rec.cloudinaryUrl ≠ "" :=
  ⟨rfl, by decide, by decide, by decide⟩

/-- Claim C3: a successful upload's record parses back to the very clock
reading used to build it, satisfies expiresAt = uploadTime + 24 hours
(computed once from that single reading), and stores the uploaded byte size
as fileSize. -/
theorem uploadRecord_expiry_size (fileId fileName : String) (now fileSize : Nat)
    (url fileType publicId : String) (h : now + 24 * 60 * 60 * 1000 < maxEpochMs) :
    jsGetTime (uploadRecord fileId fileName now fileSize url fileType publicId).uploadTime
      = some now
    ∧ jsGetTime (uploadRecord fileId fileName now fileSize url fileType publicId).expiresAt
      = some (now + 24 * 60 * 60 * 1000)
    ∧ (uploadRecord fileId fileName now fileSize url fileType publicId).fileSize = fileSize := by
  refine ⟨?_, ?_, rfl⟩
  · exact getTime_toISOString now (by omega)
  · exact getTime_toISOString (now + 24 * 60 * 60 * 1000) h

/-- Witness for C3: uploading a 2,000-byte file at epoch 1700000000000 gives
fileSize 2000 and an expiry stamp exactly 24 hours later. -/
theorem uploadRecord_expiry_size_wit :
    (uploadRecord "id1" "Q3-Report.pdf" 1700000000000 2000 "u" "application/pdf" "p").fileSize
      = 2000
    ∧ jsGetTime (uploadRecord "id1" "Q3-Report.pdf" 1700000000000 2000 "u" "application/pdf"
        "p").expiresAt = some 1700086400000 := by
  have h := uploadRecord_expiry_size "id1" "Q3-Report.pdf" 1700000000000 2000 "u"
    "application/pdf" "p" (by rw [maxEpochMs_eq]; norm_num)
  exact ⟨h.2.2, h.2.1.trans (by norm_num)⟩

/-- Claim C2: the expiry sweep partitions the list by expiry: survivors are
exactly the non-expired records (in order), one deletion attempt is recorded
per expired record (in order), every expired record is absent from the
returned and persisted sets with its deletion attempted, and every
non-expired record is returned and persisted unchanged. -/
theorem cleanupExpired_partition (now : Nat) (files : List FileInfo)
    (hne : ∀ f ∈ files, f.expiresAt ≠ "") :
    (cleanupExpiredFilesSync now files).valid = files.filter (fun f => !isExpiredJS now f)
    ∧ (cleanupExpiredFilesSync now files).deletions =
        (files.filter (isExpiredJS now)).map (fun f => (f.publicId, f.fileType))
    ∧ (∀ f ∈ files, ∀ te : Nat, jsGetTime f.expiresAt = some te → te ≤ now →
        f ∉ (cleanupExpiredFilesSync now files).valid ∧ f ∉ sweepPersisted now files ∧
        (f.publicId, f.fileType) ∈ (cleanupExpiredFilesSync now files).deletions)
    ∧ (∀ f ∈ files, ∀ te : Nat, jsGetTime f.expiresAt = some te → now < te →
        f ∈ (cleanupExpiredFilesSync now files).valid ∧ f ∈ sweepPersisted now files) := by
  have hmap : files.map (backfill now) = files := by
    rw [show files.map (backfill now) = files.map id from
      List.map_congr_left (fun f hf => backfill_id now f (hne f hf)), List.map_id]
  have hc := cleanup_eq now files
  rw [hmap] at hc
  refine ⟨by rw [hc], by rw [hc], ?_, ?_⟩
  · intro f hf te hte hle
    have hex : isExpiredJS now f = true := by
      unfold isExpiredJS
      rw [hte]
      simp [hle]
    have hany : (cleanupExpiredFilesSync now files).hasExpired = true := by
      rw [hc]
      simp only [List.any_eq_true]
      exact ⟨f, hf, hex⟩
    refine ⟨?_, ?_, ?_⟩
    · intro hmem
      rw [hc] at hmem
      simp [List.mem_filter, hex] at hmem
    · intro hmem
      unfold sweepPersisted at hmem
      rw [if_pos hany, hc] at hmem
      simp [List.mem_filter, hex] at hmem
    · rw [hc]
      exact List.mem_map.2 ⟨f, List.mem_filter.2 ⟨hf, hex⟩, rfl⟩
  · intro f hf te hte hgt
    have hex : isExpiredJS now f = false := by
      unfold isExpiredJS
      rw [hte]
      simp
      omega
    constructor
    · rw [hc]
      exact List.mem_filter.2 ⟨hf, by rw [hex]; rfl⟩
    · unfold sweepPersisted
      by_cases hq : (cleanupExpiredFilesSync now files).hasExpired = true
      · rw [if_pos hq, hc]
        exact List.mem_filter.2 ⟨hf, by rw [hex]; rfl⟩
      · rw [if_neg hq]
        exact hf

/-- An expired stored record (expiry 100ms, checked at 1000ms). -/
def c2a : FileInfo :=
  { id := "a", fileName := "old.bin", uploadTime := "1970-01-01T00:00:00.000Z",
    expiresAt := "1970-01-01T00:00:00.100Z", fileSize := 3,
    cloudinaryUrl := "ua", fileType := "tb", publicId := "pa" }

/-- A still-valid stored record (expiry one day, checked at 1000ms). -/
def c2b : FileInfo :=
  { id := "b", fileName := "new.bin", uploadTime := "1970-01-01T00:00:00.000Z",
    expiresAt := "1970-01-02T00:00:00.000Z", fileSize := 4,
    cloudinaryUrl := "ub", fileType := "tb", publicId := "pb" }

/-- Witness for C2: with "a" expired and "b" valid, the sweep keeps only "b"
and attempts exactly the deletion of "a". -/
theorem cleanupExpired_partition_wit :
    (cleanupExpiredFilesSync 1000 [c2a, c2b]).valid = [c2b]
    ∧ (cleanupExpiredFilesSync 1000 [c2a, c2b]).deletions = [(c2a.publicId, c2a.fileType)] := by
  have h := cleanupExpired_partition 1000 [c2a, c2b] (by decide)
  exact ⟨h.1.trans (by decide), h.2.1.trans (by decide)⟩

/-- Claim C8: `getStoredFiles` never throws: a missing value and the empty
string give an empty list; an unparseable value or a non-array value resets
the store (key removed) and returns an empty list; a parsed array has entries
missing a required string field silently filtered out, the remainder swept
for expiry. -/
theorem getStoredFiles_spec (now : Nat) :
    getStoredFiles now none = ⟨[], none, []⟩
    ∧ getStoredFiles now (some "") = ⟨[], some "", []⟩
    ∧ (∀ s : String, s ≠ "" → jsonParse s = none → getStoredFiles now (some s) = ⟨[], none, []⟩)
    ∧ (∀ (s : String) (j : Json), s ≠ "" → jsonParse s = some j →
        (∀ xs : JsonList, j ≠ Json.arr xs) → getStoredFiles now (some s) = ⟨[], none, []⟩)
    ∧ (∀ (s : String) (xs : JsonList), s ≠ "" → jsonParse s = some (Json.arr xs) →
        (getStoredFiles now (some s)).files =
          ((readValidEntries xs).map (backfill now)).filter (fun f => !isExpiredJS now f)
        ∧ (getStoredFiles now (some s)).deletions =
          (((readValidEntries xs).map (backfill now)).filter (isExpiredJS now)).map
            (fun f => (f.publicId, f.fileType))) := by
  refine ⟨rfl, rfl, ?_, ?_, ?_⟩
  · intro s hs hp
    unfold getStoredFiles
    dsimp only
    rw [if_neg hs, hp]
  · intro s j hs hp hnotarr
    unfold getStoredFiles
    dsimp only
    rw [if_neg hs, hp]
    cases j with
    | null => rfl
    | bool b => rfl
    | num n => rfl
    | str s2 => rfl
    | arr xs => exact absurd rfl (hnotarr xs)
    | obj fs => rfl
  · intro s xs hs hp
    unfold getStoredFiles
    dsimp only
    rw [if_neg hs, hp]
    constructor
    · show (cleanupExpiredFilesSync now (readValidEntries xs)).valid = _
      rw [cleanup_eq]
    · show (cleanupExpiredFilesSync now (readValidEntries xs)).deletions = _
      rw [cleanup_eq]

/-- Witness for C8: a corrupted value "x" resets the store to empty, and the
array value "[3]" (whose only entry has no required string fields) yields an
empty file list. -/
theorem getStoredFiles_spec_wit :
    getStoredFiles 5 (some "x") = ⟨[], none, []⟩
    ∧ (getStoredFiles 5 (some "[3]")).files = [] := by
  have h := getStoredFiles_spec 5
  constructor
  · exact h.2.2.1 "x" (by decide) (by decide)
  · have h5 := h.2.2.2.2 "[3]" (JsonList.cons (Json.num 3) JsonList.nil) (by decide) (by decide)
    exact h5.1.trans (by decide)

/-- Claim C9: filtering with an empty searchTerm keeps the list membership
(a permutation, reordered only by the sort rule); a non-empty searchTerm
keeps exactly the records whose lower-cased fileName contains the lower-cased
term as a contiguous substring; and the match consults no field other than
fileName. -/
theorem applyFilters_search_spec (files : List FileInfo) (fo : FilterOptions) :
    (fo.searchTerm = "" → (applyFilters files fo).Perm files)
    ∧ (fo.searchTerm ≠ "" → ∀ f : FileInfo, f ∈ applyFilters files fo ↔
        f ∈ files ∧ ∃ l r : List Char,
          (jsToLower f.fileName).data = l ++ (jsToLower fo.searchTerm).data ++ r)
    ∧ (∀ (term : String) (f g : FileInfo), f.fileName = g.fileName →
        matchesSearch term f = matchesSearch term g) := by
  refine ⟨?_, ?_, ?_⟩
  · intro h
    unfold applyFilters
    rw [if_pos h]
    exact perm_sortByB _ files
  · intro h f
    unfold applyFilters
    rw [if_neg h, mem_sortByB, List.mem_filter]
    apply and_congr_right
    intro _
    unfold matchesSearch jsIncludes
    exact includesB_iff _ _
  · intro term f g hfg
    unfold matchesSearch
    rw [hfg]

/-- A record whose name contains "Report". -/
def c9r1 : FileInfo :=
  { id := "1", fileName := "Q3-Report.pdf", uploadTime := "1970-01-01T00:00:00.000Z",
    expiresAt := "1970-01-02T00:00:00.000Z", fileSize := 1,
    cloudinaryUrl := "u1", fileType := "t", publicId := "p1" }

/-- A record whose name does not contain "report". -/
def c9r2 : FileInfo :=
  { id := "2", fileName := "notes.txt", uploadTime := "1970-01-01T00:00:00.000Z",
    expiresAt := "1970-01-02T00:00:00.000Z", fileSize := 2,
    cloudinaryUrl := "u2", fileType := "t", publicId := "p2" }

/-- The filter of the C9 witness: search term "report". -/
def c9fo : FilterOptions :=
  { searchTerm := "report", sortKey := SortKey.byFileName, sortOrd := SortOrd.asc }

/-- Witness for C9: "Q3-Report.pdf" matches the search term "report"
case-insensitively and so stays in the filtered list. -/
theorem applyFilters_search_spec_wit :
    c9r1 ∈ applyFilters [c9r1, c9r2] c9fo := by
  have h := (applyFilters_search_spec [c9r1, c9r2] c9fo).2.1 (by decide) c9r1
  apply h.mpr
  exact ⟨by decide, ("q3-").data, (".pdf").data, by decide⟩

theorem filter_length_split {α : Type} (p : α → Bool) (l : List α) :
    (l.filter p).length + (l.filter (fun a => !p a)).length = l.length := by
  induction l with
  | nil => rfl
  | cons x xs ih =>
    cases hx : p x
    · simp [List.filter_cons, hx]
      omega
    · simp [List.filter_cons, hx]
      omega

/-- Claim C6: the batch delete processes its input in sequential groups of at
most 5, never aborts on a per-item failure, counts successes and failures so
that they always sum to the input length, aggregates the error messages by
publicId in order, returns (n, 0, []) whenever every per-item deletion
succeeds, and does so in particular in the deployed configuration where every
deletion is the always-resolving no-op. -/
theorem batchDelete_spec : ∀ (outcome : DelItem → Except String Unit) (files : List DelItem),
    (chunks5 files).flatten = files
    ∧ (∀ c ∈ chunks5 files, c.length ≤ 5)
    ∧ (batchDeleteWith outcome files).successCount
        = (files.filter (fun f => isOkB (outcome f))).length
    ∧ (batchDeleteWith outcome files).failedCount
        = (files.filter (fun f => !isOkB (outcome f))).length
    ∧ (batchDeleteWith outcome files).errors
        = (files.filter (fun f => !isOkB (outcome f))).map
            (fun f => f.publicId ++ ": " ++ errMsgOf (outcome f))
    ∧ (batchDeleteWith outcome files).successCount + (batchDeleteWith outcome files).failedCount
        = files.length
    ∧ ((∀ f ∈ files, isOkB (outcome f) = true) → batchDeleteWith outcome files
        = ⟨files.length, 0, []⟩)
    ∧ batchDeleteFilesFromCloudinary files = ⟨files.length, 0, []⟩ := by
  intro outcome files
  have hbg : ∀ oc : DelItem → Except String Unit, batchDeleteWith oc files =
      ⟨(files.filter (fun f => isOkB (oc f))).length,
       (files.filter (fun f => !isOkB (oc f))).length,
       (files.filter (fun f => !isOkB (oc f))).map
         (fun f => f.publicId ++ ": " ++ errMsgOf (oc f))⟩ := by
    intro oc
    rw [batchDeleteWith_eq, runItem_fold]
    simp
  have hsucc : ∀ oc : DelItem → Except String Unit, (∀ f ∈ files, isOkB (oc f) = true) →
      batchDeleteWith oc files = ⟨files.length, 0, []⟩ := by
    intro oc hall
    have h1 : files.filter (fun f => isOkB (oc f)) = files := List.filter_eq_self.mpr hall
    have h2 : files.filter (fun f => !isOkB (oc f)) = [] := by
      rw [List.filter_eq_nil_iff]
      intro a ha
      simp [hall a ha]
    rw [hbg oc, h1, h2]
    rfl
  refine ⟨chunks5_flatten files, chunks5_short files, by rw [hbg outcome], by rw [hbg outcome],
    by rw [hbg outcome], ?_, hsucc outcome, ?_⟩
  · rw [hbg outcome]
    exact filter_length_split (fun f => isOkB (outcome f)) files
  · show batchDeleteWith _ files = _
    exact hsucc _ (fun f hf => rfl)

/-- The 7 entries of the C6 witness. -/
def c6items : List DelItem :=
  [⟨"p1", some "image/png"⟩, ⟨"p2", none⟩, ⟨"p3", none⟩, ⟨"p4", none⟩,
   ⟨"p5", none⟩, ⟨"p6", none⟩, ⟨"p7", none⟩]

/-- Witness for C6: batch-deleting 7 entries in the deployed configuration
reports successCount = 7, failedCount = 0, errors = [], and the chunks cover
exactly the input. -/
theorem batchDelete_spec_wit :
    batchDeleteFilesFromCloudinary c6items = ⟨7, 0, []⟩
    ∧ (chunks5 c6items).flatten = c6items := by
  have h := batchDelete_spec (fun f => (deleteFileFromCloudinary f.publicId f.fileType).1) c6items
  exact ⟨(h.2.2.2.2.2.2.2).trans (by decide), h.1⟩

/-- Claim C4 (amended): share-link serialization is reversible for records
whose uploadTime, expiresAt and fileType are nonempty (the other fields
survive the import's `||`-defaults unchanged): whenever `generateShareParam`
succeeds, `parseShareLink` applied to the encoded parameter at any later
clock reading returns exactly the original list. -/
theorem shareLink_roundtrip_amended (now now2 : Nat) (files : List FileInfo)
    (hf : ∀ f ∈ files, f.uploadTime ≠ "" ∧ f.expiresAt ≠ "" ∧ f.fileType ≠ "")
    (enc : String) (henc : generateShareParam now files = Except.ok enc) :
    parseShareLink now2 enc = Except.ok files := by
  unfold generateShareParam at henc
  cases hb : btoa (jsonStringify (shareDataJson now files)) with
  | none => rw [hb] at henc; exact Except.noConfusion henc
  | some e =>
    rw [hb] at henc
    have he : e = enc := by injection henc
    subst he
    unfold parseShareLink
    rw [atob_btoa _ _ hb]
    dsimp only
    rw [jsonParse_stringify]
    dsimp only
    rw [show getProp (shareDataJson now files) "files" =
      some (Json.arr (jlOfList (files.map shareFileJson))) from rfl]
    dsimp only
    rw [jlToList_ofList, map_shareEntry_rt now2 files hf]

/-- A record with an empty fileType (all required string fields present). -/
def c4f : FileInfo :=
  { id := "a", fileName := "b", uploadTime := "c", expiresAt := "d", fileSize := 1,
    cloudinaryUrl := "e", fileType := "", publicId := "g" }

/-- What the import reconstructs from `c4f`: the empty fileType has become
"application/octet-stream". -/
def c4g : FileInfo :=
  { id := "a", fileName := "b", uploadTime := "c", expiresAt := "d", fileSize := 1,
    cloudinaryUrl := "e", fileType := "application/octet-stream", publicId := "g" }

/-- The encoded share parameter produced for `[c4f]` at clock 0. -/
def c4enc : String := "eyJ0aW1lc3RhbXAiOiIxOTcwLTAxLTAxVDAwOjAwOjAwLjAwMFoiLCJmaWxlcyI6W3siaWQiOiJhIiwiZmlsZU5hbWUiOiJiIiwidXBsb2FkVGltZSI6ImMiLCJleHBpcmVzQXQiOiJkIiwiZmlsZVNpemUiOjEsImNsb3VkaW5hcnlVcmwiOiJlIiwiZmlsZVR5cGUiOiIiLCJwdWJsaWNJZCI6ImcifV19"

/-- Counterexample for C4 as stated: the record `c4f` has every field present
(strings for id, fileName, cloudinaryUrl, uploadTime, expiresAt, fileType,
publicId; a number for fileSize), its share link is generated successfully,
yet the import returns a different record: the `fileType || default` import
rule turns the present-but-empty fileType into "application/octet-stream". -/
theorem shareLink_roundtrip_cex :
    generateShareParam 0 [c4f] = Except.ok c4enc
    ∧ parseShareLink 0 c4enc = Except.ok [c4g]
    ∧ c4g ≠ c4f ∧ c4f.fileType = "" ∧ c4g.fileType = "application/octet-stream" :=
  ⟨rfl, rfl, by decide, rfl, rfl⟩

/-- A fully-populated record for the C4 witness. -/
def c4w : FileInfo :=
  { id := "a", fileName := "report.pdf", uploadTime := "1970-01-01T00:00:00.000Z",
    expiresAt := "1970-01-02T00:00:00.000Z", fileSize := 2000,
    cloudinaryUrl := "https://res.example/x", fileType := "application/pdf", publicId := "p1" }

/-- The encoded share parameter produced for `[c4w]` at clock 0. -/
def c4wenc : String := "eyJ0aW1lc3RhbXAiOiIxOTcwLTAxLTAxVDAwOjAwOjAwLjAwMFoiLCJmaWxlcyI6W3siaWQiOiJhIiwiZmlsZU5hbWUiOiJyZXBvcnQucGRmIiwidXBsb2FkVGltZSI6IjE5NzAtMDEtMDFUMDA6MDA6MDAuMDAwWiIsImV4cGlyZXNBdCI6IjE5NzAtMDEtMDJUMDA6MDA6MDAuMDAwWiIsImZpbGVTaXplIjoyMDAwLCJjbG91ZGluYXJ5VXJsIjoiaHR0cHM6Ly9yZXMuZXhhbXBsZS94IiwiZmlsZVR5cGUiOiJhcHBsaWNhdGlvbi9wZGYiLCJwdWJsaWNJZCI6InAxIn1dfQ=="

/-- Witness for the amended C4: the record `c4w` round-trips exactly through
its generated share parameter, decoded at a later clock reading. -/
theorem shareLink_roundtrip_amended_wit :
    parseShareLink 7 c4wenc = Except.ok [c4w] :=
  shareLink_roundtrip_amended 0 7 [c4w] (by decide) c4wenc rfl

/-- Claim C1 (amended): when each input list has pairwise-distinct ids and
every uploadTime parses, the merge has exactly one record per id of the union
of the two id sets, for a shared id keeps the cloud record exactly when its
uploadTime is strictly later (ties keep the first list's record), and sorts
its output by uploadTime descending. -/
theorem mergeFileLists_spec_amended (A B : List FileInfo)
    (hA : (A.map FileInfo.id).Nodup) (hB : (B.map FileInfo.id).Nodup)
    (hparse : ∀ f ∈ A ++ B, (jsGetTime f.uploadTime).isSome = true) :
    ((mergeFileLists A B).map FileInfo.id).Nodup
    ∧ (∀ i : String, i ∈ (mergeFileLists A B).map FileInfo.id ↔
        i ∈ A.map FileInfo.id ∨ i ∈ B.map FileInfo.id)
    ∧ (∀ a ∈ A, ∀ b ∈ B, a.id = b.id → ∀ ta tb : Nat,
        jsGetTime a.uploadTime = some ta → jsGetTime b.uploadTime = some tb →
        (if ta < tb then b else a) ∈ mergeFileLists A B
        ∧ (a ≠ b → (if ta < tb then a else b) ∉ mergeFileLists A B))
    ∧ (mergeFileLists A B).Pairwise (fun x y => ∀ tx ty : Nat,
        jsGetTime x.uploadTime = some tx → jsGetTime y.uploadTime = some ty → ty ≤ tx) := by
  refine ⟨merge_ids_nodup A B, fun i => merge_ids_mem A B i, ?_, merge_sorted A B hparse⟩
  intro a haA b hbB hid ta tb hta htb
  have hw := merge_winner A B hA hB a b haA hbB hid ta tb hta htb
  constructor
  · rw [mergeFileLists_mem]
    have hwid : (if ta < tb then b else a).id = a.id := by
      by_cases h : ta < tb
      · rw [if_pos h, ← hid]
      · rw [if_neg h]
    rw [hwid, hw]
  · intro hne hmem
    rw [mergeFileLists_mem] at hmem
    have hlid : (if ta < tb then a else b).id = a.id := by
      by_cases h : ta < tb
      · rw [if_pos h]
      · rw [if_neg h, ← hid]
    rw [hlid, hw] at hmem
    have hq : (if ta < tb then b else a) = (if ta < tb then a else b) := by injection hmem
    by_cases h : ta < tb
    · rw [if_pos h, if_pos h] at hq
      exact hne hq.symm
    · rw [if_neg h, if_neg h] at hq
      exact hne hq

/-- The strictly-latest record (9ms) with id "x" in the local list. -/
def c1r1 : FileInfo :=
  { id := "x", fileName := "f1", uploadTime := "1970-01-01T00:00:00.009Z",
    expiresAt := "", fileSize := 1, cloudinaryUrl := "u1", fileType := "t", publicId := "p1" }

/-- A second local record with the same id "x" but an earlier time (5ms). -/
def c1r2 : FileInfo :=
  { id := "x", fileName := "f2", uploadTime := "1970-01-01T00:00:00.005Z",
    expiresAt := "", fileSize := 1, cloudinaryUrl := "u2", fileType := "t", publicId := "p2" }

/-- The cloud record with id "x" and time 7ms. -/
def c1s : FileInfo :=
  { id := "x", fileName := "g", uploadTime := "1970-01-01T00:00:00.007Z",
    expiresAt := "", fileSize := 1, cloudinaryUrl := "u3", fileType := "t", publicId := "p3" }

/-- Counterexample for C1 as stated: with a duplicate id inside the first
list, the record with the strictly latest uploadTime (9ms) is *not* kept:
the first-phase Map.set overwrites unconditionally, so the merge compares the
cloud record (7ms) against the last local record (5ms) and keeps the cloud
record. -/
theorem mergeFileLists_dup_id_cex :
    mergeFileLists [c1r1, c1r2] [c1s] = [c1s]
    ∧ c1r1.id = c1s.id ∧ c1r2.id = c1s.id
    ∧ jsGetTime c1r1.uploadTime = some 9
    ∧ jsGetTime c1s.uploadTime = some 7
    ∧ jsGetTime c1r2.uploadTime = some 5
    ∧ c1r1 ∉ mergeFileLists [c1r1, c1r2] [c1s] := by
  refine ⟨by decide, by decide, by decide, by decide, by decide, by decide, by decide⟩

/-- The local record of the C1 witness (id "k", 5ms). -/
def c1wa : FileInfo :=
  { id := "k", fileName := "old", uploadTime := "1970-01-01T00:00:00.005Z",
    expiresAt := "", fileSize := 1, cloudinaryUrl := "ua", fileType := "t", publicId := "pa" }

/-- The cloud record of the C1 witness (id "k", 9ms, strictly later). -/
def c1wb : FileInfo :=
  { id := "k", fileName := "new", uploadTime := "1970-01-01T00:00:00.009Z",
    expiresAt := "", fileSize := 1, cloudinaryUrl := "ub", fileType := "t", publicId := "pb" }

/-- Witness for the amended C1: for the shared id "k" the strictly later
cloud record is kept and the older local record is dropped. -/
theorem mergeFileLists_spec_amended_wit :
    c1wb ∈ mergeFileLists [c1wa] [c1wb] ∧ c1wa ∉ mergeFileLists [c1wa] [c1wb] := by
  have h := (mergeFileLists_spec_amended [c1wa] [c1wb] (by decide) (by decide) (by decide)).2.2.1
    c1wa (by decide) c1wb (by decide) rfl 5 9 (by decide) (by decide)
  constructor
  · have h1 := h.1
    rw [if_pos (by decide : (5 : Nat) < 9)] at h1
    exact h1
  · have h2 := h.2 (by decide)
    rw [if_pos (by decide : (5 : Nat) < 9)] at h2
    exact h2

/-- Claim C5 (amended): the merge is order-independent when no two distinct
records anywhere in the two lists carry exactly equal (parsed) uploadTime
values and each list has pairwise-distinct ids: under those conditions
`mergeFileLists A B = mergeFileLists B A`. -/
theorem mergeFileLists_comm_amended (A B : List FileInfo)
    (hA : (A.map FileInfo.id).Nodup) (hB : (B.map FileInfo.id).Nodup)
    (hparse : ∀ f ∈ A ++ B, (jsGetTime f.uploadTime).isSome = true)
    (hties : ∀ f ∈ A ++ B, ∀ g ∈ A ++ B,
      jsGetTime f.uploadTime = jsGetTime g.uploadTime → f = g) :
    mergeFileLists A B = mergeFileLists B A := by
  have hvals : ((mergedMap A B).map (fun p => p.2)).Perm ((mergedMap B A).map (fun p => p.2)) :=
    (mergedMap_pairs_perm A B hA hB hparse hties).map _
  have h1 : (mergeFileLists A B).Perm (mergeFileLists B A) := by
    unfold mergeFileLists
    exact (perm_sortByB _ _).trans (hvals.trans (perm_sortByB _ _).symm)
  have hparse2 : ∀ f ∈ B ++ A, (jsGetTime f.uploadTime).isSome = true := by
    intro f hf
    rcases List.mem_append.1 hf with h | h
    · exact hparse f (List.mem_append.2 (Or.inr h))
    · exact hparse f (List.mem_append.2 (Or.inl h))
  have hswap : ∀ f : FileInfo, f ∈ B ++ A → f ∈ A ++ B := by
    intro f hf
    rcases List.mem_append.1 hf with h | h
    · exact List.mem_append.2 (Or.inr h)
    · exact List.mem_append.2 (Or.inl h)
  have hties2 : ∀ f ∈ B ++ A, ∀ g ∈ B ++ A,
      jsGetTime f.uploadTime = jsGetTime g.uploadTime → f = g :=
    fun f hf g hg => hties f (hswap f hf) g (hswap g hg)
  have hs1 := merge_strict_sorted A B hparse hties
  have hs2 := merge_strict_sorted B A hparse2 hties2
  haveI : IsAntisymm FileInfo (fun x y => beforeTimeDesc x y = true) := ⟨by
    intro a b hab hba
    have hx := beforeTimeDesc_asym a b hab
    rw [hx] at hba
    exact Bool.noConfusion hba⟩
  exact List.eq_of_perm_of_sorted h1 hs1 hs2

/-- A record with id "a" and time 3ms. -/
def c5a : FileInfo :=
  { id := "a", fileName := "fa", uploadTime := "1970-01-01T00:00:00.003Z",
    expiresAt := "", fileSize := 1, cloudinaryUrl := "ua", fileType := "t", publicId := "pa" }

/-- A different record with id "b" and exactly the same time 3ms. -/
def c5b : FileInfo :=
  { id := "b", fileName := "fb", uploadTime := "1970-01-01T00:00:00.003Z",
    expiresAt := "", fileSize := 2, cloudinaryUrl := "ub", fileType := "t", publicId := "pb" }

/-- Counterexample for C5 as stated: no id occurs in both lists (the side
condition about ids occurring in both lists with equal uploadTime is vacuously
satisfied), yet swapping the argument order changes the output: the sort ties
the two equal uploadTime values and the stable sort preserves each input
order. -/
theorem mergeFileLists_comm_cex :
    mergeFileLists [c5a] [c5b] = [c5a, c5b]
    ∧ mergeFileLists [c5b] [c5a] = [c5b, c5a]
    ∧ c5a.id ≠ c5b.id ∧ c5a ≠ c5b
    ∧ jsGetTime c5a.uploadTime = jsGetTime c5b.uploadTime
    ∧ mergeFileLists [c5a] [c5b] ≠ mergeFileLists [c5b] [c5a] := by decide

/-- A record with id "b" and a distinct time 8ms, for the C5 witness. -/
def c5v : FileInfo :=
  { id := "b", fileName := "fb", uploadTime := "1970-01-01T00:00:00.008Z",
    expiresAt := "", fileSize := 2, cloudinaryUrl := "ub", fileType := "t", publicId := "pb" }

/-- Witness for the amended C5: with distinct parsed uploadTime values the
merge of two singleton lists is the same in either order. -/
theorem mergeFileLists_comm_amended_wit :
    mergeFileLists [c5a] [c5v] = mergeFileLists [c5v] [c5a] :=
  mergeFileLists_comm_amended [c5a] [c5v] (by decide) (by decide) (by decide) (by decide)
